import Mathlib

/-!
Verification of `sockeye/lexical_constraints.py`: the constraint state
machine (`ConstrainedHypothesis`), the bank allocator (`get_bank_sizes`)
and the beam-step selector (`topk`) for lexically constrained beam search.

Python lists are modelled as Lean `List`s with Python's indexing
semantics (negative indices wrap from the end, out-of-range raises —
modelled by `Option`, `none` standing for a raised `IndexError`).
Loops whose termination is not structural carry an explicit fuel
argument; `none` for every fuel models a Python-level divergence or
error.
-/

namespace LexicalConstraints

/-- Python `l[i]` for `i : Int`: negative indices count from the end,
out-of-range access raises (`none`). -/
def pyGet (l : List α) (i : Int) : Option α :=
  if 0 ≤ i then l.get? i.toNat
  else if -i ≤ (l.length : Int) then l.get? (l.length - (-i).toNat) else none

/-- Python `l[i] = v` for `i : Int`: negative indices count from the end,
out-of-range assignment raises (`none`). -/
def pySet (l : List α) (i : Int) (v : α) : Option (List α) :=
  if 0 ≤ i then
    if i.toNat < l.length then some (l.set i.toNat v) else none
  else if -i ≤ (l.length : Int) then
    some (l.set (l.length - (-i).toNat) v)
  else none

/-- The state of `ConstrainedHypothesis` (`lexical_constraints.py`,
lines 31-53): flattened constraint tokens, the parallel `is_sequence`
array, the end-of-sequence id, the `met` flags and `lastMet`. -/
structure ConstrainedHypothesis where
  constraints : List Nat
  is_sequence : List Nat
  eos_id : Nat
  met : List Bool
  lastMet : Int
deriving DecidableEq, Repr

namespace ConstrainedHypothesis

/-- The constructor loop (lines 44-47): for each phrase, append its
tokens, append `1`s to `is_sequence`, then set `is_sequence[-1] = 0`
(which raises when `is_sequence` is still empty). -/
def buildArrays : List (List Nat) → List Nat → List Nat → Option (List Nat × List Nat)
  | [], cons, seq => some (cons, seq)
  | phrase :: rest, cons, seq =>
    let cons := cons ++ phrase
    let seq := seq ++ List.replicate phrase.length 1
    match pySet seq (-1) 0 with
    | none => none
    | some seq => buildArrays rest cons seq

/-- Constructor `ConstrainedHypothesis.__init__` (lines 38-53). -/
def init (constraint_list : List (List Nat)) (eos_id : Nat) : Option ConstrainedHypothesis := do
  let (cons, seq) ← buildArrays constraint_list [] []
  some { constraints := cons, is_sequence := seq, eos_id := eos_id,
         met := List.replicate cons.length false, lastMet := -1 }

/-- Method `size()` (lines 68-72). -/
def size (s : ConstrainedHypothesis) : Nat :=
  s.constraints.length

/-- Method `numMet()` (lines 74-78): `sum(self.met)`. -/
def numMet (s : ConstrainedHypothesis) : Nat :=
  s.met.count true

/-- Method `numNeeded()` (lines 80-84): `size() - numMet()` over Python ints. -/
def numNeeded (s : ConstrainedHypothesis) : Int :=
  (s.size : Int) - (s.numMet : Int)

/-- Method `finished()` (lines 108-114). -/
def finished (s : ConstrainedHypothesis) : Bool :=
  s.numNeeded == 0

/-- Method `isValid(wordid)` (lines 116-123). -/
def isValid (s : ConstrainedHypothesis) (wordid : Nat) : Bool :=
  s.finished || wordid != s.eos_id

/-- The test `self.lastMet != -1 and self.is_sequence[self.lastMet] == 1`
shared by `allowed` (line 97) and `advance` (line 141); reading
`is_sequence[lastMet]` can raise. -/
def midPhrase (s : ConstrainedHypothesis) : Option Bool :=
  if s.lastMet == -1 then some false
  else (pyGet s.is_sequence s.lastMet).map (fun v => v == 1)

/-- The scan of `allowed` (lines 102-104): collect `constraints[i]` for
every `i` with `met[i]` false and (`i == 0` or `not is_sequence[i-1]`),
with Python's short-circuit evaluation order. -/
def allowedLoop (s : ConstrainedHypothesis) : Nat → List Nat → Option (List Nat)
  | _, [] => some []
  | i, id :: rest => do
    let m ← pyGet s.met (i : Int)
    let keep ←
      if m then pure false
      else if i == 0 then pure true
      else do
        let v ← pyGet s.is_sequence ((i : Int) - 1)
        pure (v == 0)
    let tail ← allowedLoop s (i + 1) rest
    pure (if keep then id :: tail else tail)

/-- Method `allowed()` (lines 86-106). -/
def allowed (s : ConstrainedHypothesis) : Option (List Nat) := do
  let mp ← s.midPhrase
  if mp then do
    let t ← pyGet s.constraints (s.lastMet + 1)
    pure [t]
  else
    allowedLoop s 0 s.constraints

/-- The rollback loop of `advance` (lines 148-151):
`while is_sequence[index]: met[index] = False; index -= 1`.
Fuel bounds the iteration count; the caller passes enough fuel that
`none` can only arise from an out-of-range access. -/
def rollbackLoop (seq : List Nat) : Nat → Int → List Bool → Option (List Bool)
  | 0, _, _ => none
  | fuel + 1, index, met => do
    let v ← pyGet seq index
    if v ≠ 0 then do
      let met ← pySet met index false
      rollbackLoop seq fuel (index - 1) met
    else
      pure met

/-- The single-word branch of `advance` (lines 155-165): zip
`constraints` with `[0] + is_sequence[:-1]` and `met`, find the first
position equal to `(word_id, 0, 0)` (`False == 0` in Python), mark it
met; a failed lookup is swallowed by the bare `except`. -/
def elseBranch (s : ConstrainedHypothesis) (word_id : Nat) : ConstrainedHypothesis :=
  let prevSeq := 0 :: s.is_sequence.dropLast
  let l := s.constraints.zip (prevSeq.zip s.met)
  match l.findIdx? (fun c => c.1 == word_id && c.2.1 == 0 && c.2.2 == false) with
  | some pos => { s with met := s.met.set pos true, lastMet := (pos : Int) }
  | none => s

/-- Method `advance(word_id)` (lines 125-167). The Python method deep-copies
and mutates; here the new state is built directly. -/
def advance (s : ConstrainedHypothesis) (word_id : Nat) : Option ConstrainedHypothesis := do
  let mp ← s.midPhrase
  if mp then do
    let expected ← pyGet s.constraints (s.lastMet + 1)
    if word_id == expected then do
      let met ← pySet s.met (s.lastMet + 1) true
      pure { s with met := met, lastMet := s.lastMet + 1 }
    else do
      let met ← rollbackLoop s.is_sequence (s.lastMet.toNat + s.is_sequence.length + 2) s.lastMet s.met
      pure { s with met := met, lastMet := -1 }
  else
    pure (elseBranch s word_id)

end ConstrainedHypothesis

/-- Constructor `NullHypothesis.__init__` (lines 170-176): calls the base
constructor with the tuple `([], [])`, i.e. two empty phrases, and
end-of-sequence id `0`. -/
def nullHypothesisInit : Option ConstrainedHypothesis :=
  ConstrainedHypothesis.init [[], []] 0

/-- Stable insertion of `x` into `l`: `x` goes before the first element
whose key is not smaller, so equal keys keep their original order. -/
def insertStable (key : α → β) [LinearOrder β] (x : α) : List α → List α
  | [] => [x]
  | y :: ys => if key y < key x then y :: insertStable key x ys else x :: y :: ys

/-- Stable sort by key, modelling Python's `sorted(l, key=...)`. -/
def sortStable (key : α → β) [LinearOrder β] : List α → List α
  | [] => []
  | x :: xs => insertStable key x (sortStable key xs)

/-- The index list of `get_bank_sizes` (lines 204-205):
`sorted(list(range(i-1,-1,-1)) + list(range(i+1,len(assigned))), key=lambda x: abs(x-i))`. -/
def sortedIndices (i n : Nat) : List Nat :=
  sortStable (fun x => ((x : Int) - (i : Int)).natAbs)
    ((List.range i).reverse ++ List.range' (i + 1) (n - (i + 1)))

/-- One pass of the inner `for j in sorted(...)` loop of `get_bank_sizes`
(lines 204-211), threading `deficit` and `assigned`. -/
def innerPass (cands : List Int) (i : Nat) : List Nat → Int → List Int → Option (Int × List Int)
  | [], deficit, assigned => some (deficit, assigned)
  | j :: rest, deficit, assigned => do
    let cj ← cands.get? j
    let aj ← assigned.get? j
    let capacity := cj - aj
    if 0 < capacity then do
      let transfer := min (deficit.natAbs : Int) capacity
      let ai ← assigned.get? i
      let assigned := assigned.set i (ai - transfer)
      let aj2 ← assigned.get? j
      let assigned := assigned.set j (aj2 + transfer)
      innerPass cands i rest (deficit + transfer) assigned
    else
      innerPass cands i rest deficit assigned

/-- The `while deficit < 0` loop of `get_bank_sizes` (lines 202-211),
with fuel bounding the number of `while` iterations. The Python loop
does not terminate when no bank ever offers spare capacity; that
divergence is `none` at every fuel. -/
def whileDeficit (cands : List Int) (i : Nat) : Nat → Int → List Int → Option (List Int)
  | 0, _, _ => none
  | fuel + 1, deficit, assigned =>
    if deficit < 0 then do
      let (d, a) ← innerPass cands i (sortedIndices i assigned.length) deficit assigned
      whileDeficit cands i fuel d a
    else
      some assigned

/-- The outer `for i in range(len(assigned))` loop of `get_bank_sizes`
(lines 200-211). -/
def outerLoop (cands : List Int) (fuel : Nat) : List Nat → List Int → Option (List Int)
  | [], assigned => some assigned
  | i :: rest, assigned => do
    let ci ← cands.get? i
    let ai ← assigned.get? i
    let assigned ← whileDeficit cands i fuel (ci - ai) assigned
    outerLoop cands fuel rest assigned

/-- Function `get_bank_sizes(num_constraints, beam_size, candidates)`
(lines 185-213). `fuel` bounds each `while` loop's iterations; the
result is `none` when the Python code raises or diverges (provably so
for every fuel at diverging inputs). -/
def get_bank_sizes (num_constraints beam_size : Nat) (candidates : List Int) (fuel : Nat) :
    Option (List Int) :=
  let num_banks := num_constraints + 1
  let bank_size := beam_size / num_banks
  let remainder := beam_size - bank_size * num_banks
  let assigned : List Int := List.replicate num_banks (bank_size : Int)
  let assigned := assigned.set (num_banks - 1) ((bank_size : Int) + (remainder : Int))
  outerLoop candidates fuel (List.range num_banks) assigned

/-- The `Candidate` record (lines 216-231). Scores are modelled as
`WithTop ℚ`, with `⊤` standing for `np.inf`. -/
structure Candidate where
  row : Nat
  col : Nat
  score : WithTop ℚ
  constraints : ConstrainedHypothesis
deriving DecidableEq, Repr

/-- Set insertion `candidates.add(cand)` on the Python set: `Candidate.__eq__` and
`__hash__` look only at `(row, col)`, so an equal member keeps the one
inserted first; insertion order stands in for the set's iteration
order (the properties proved below do not depend on it). -/
def addCand (l : List Candidate) (c : Candidate) : List Candidate :=
  if l.any (fun d => d.row == c.row && d.col == c.col) then l else l ++ [c]

/-- Auxiliary scan for `idxOfMin`: `best` is the index of the smallest
score seen so far (first occurrence wins, as in numpy). -/
def idxOfMinAux (best i : Nat) (bestVal : WithTop ℚ) : List (WithTop ℚ) → Nat
  | [] => best
  | x :: xs =>
    if x < bestVal then idxOfMinAux (i + 1) (i + 1) x xs
    else idxOfMinAux best (i + 1) bestVal xs

/-- Index of the first minimum of a row, modelling
`mx.ndarray.argmin(scores, axis=1)` for one row (`none` on an empty
row). -/
def idxOfMin (row : List (WithTop ℚ)) : Option Nat :=
  match row with
  | [] => none
  | x :: xs => some (idxOfMinAux 0 0 x xs)

/-- Candidate source (1) of `topk` (lines 263-270): walk the zipped
`best_ids`, `best_word_ids`, `sequence_scores` triples. -/
def topkPart1 (hypotheses : List ConstrainedHypothesis) :
    List (Nat × Nat × WithTop ℚ) → List Candidate → Option (List Candidate)
  | [], acc => some acc
  | (row, col, seq_score) :: rest, acc => do
    let hyp ← pyGet hypotheses (row : Int)
    if hyp.isValid col then do
      let new_constraint ← hyp.advance col
      topkPart1 hypotheses rest (addCand acc ⟨row, col, seq_score, new_constraint⟩)
    else
      topkPart1 hypotheses rest acc

/-- The inner `for col in nextones` loop of `topk` (lines 290-294). -/
def topkRowCols (hyp : ConstrainedHypothesis) (scores : List (List (WithTop ℚ))) (row : Nat) :
    List Nat → List Candidate → Option (List Candidate)
  | [], acc => some acc
  | col :: rest, acc => do
    let new_constraint ← hyp.advance col
    let scoreRow ← pyGet scores (row : Int)
    let score ← pyGet scoreRow (col : Int)
    topkRowCols hyp scores row rest (addCand acc ⟨row, col, score, new_constraint⟩)

/-- Candidate sources (2) and (3) of `topk` (lines 275-294): for each
active row, the `allowed()` tokens plus the row's best item when valid. -/
def topkPart23 (inactive : List Nat) (scores : List (List (WithTop ℚ)))
    (hypotheses : List ConstrainedHypothesis) (best_next : List Nat) :
    List Nat → List Candidate → Option (List Candidate)
  | [], acc => some acc
  | row :: rest, acc => do
    let iv ← pyGet inactive (row : Int)
    if iv ≠ 0 then
      topkPart23 inactive scores hypotheses best_next rest acc
    else do
      let hyp ← pyGet hypotheses (row : Int)
      let nextones ← hyp.allowed
      let col ← pyGet best_next (row : Int)
      let nextones := if hyp.isValid col then nextones ++ [col] else nextones
      let acc ← topkRowCols hyp scores row nextones acc
      topkPart23 inactive scores hypotheses best_next rest acc

/-- The `while len(new_kbest) < beam_size` padding loop (lines 299-300):
each iteration constructs `NullHypothesis()` — which raises, so entering
this loop is an error. -/
def padToBeam (beam_size : Nat) : Nat → List Candidate → Option (List Candidate)
  | 0, l => if l.length < beam_size then none else some l
  | fuel + 1, l =>
    if l.length < beam_size then
      match nullHypothesisInit with
      | none => none
      | some nh => padToBeam beam_size fuel (l ++ [⟨0, 0, ⊤, nh⟩])
    else
      some l

/-- The bank-counting loop (lines 303-305):
`counts[cand.constraints.numMet()] += 1`. -/
def countBanks : List Candidate → List Int → Option (List Int)
  | [], counts => some counts
  | c :: rest, counts => do
    let b := c.constraints.numMet
    let cur ← counts.get? b
    countBanks rest (counts.set b (cur + 1))

/-- The pruning walk (lines 317-322): decrement the candidate's bank
counter and keep the candidate while the counter is still non-negative. -/
def pruneLoop : List Candidate → List Int → List Candidate → Option (List Int × List Candidate)
  | [], counts, acc => some (counts, acc)
  | c :: rest, counts, acc => do
    let b := c.constraints.numMet
    let cur ← counts.get? b
    let counts := counts.set b (cur - 1)
    let acc := if 0 ≤ cur - 1 then acc ++ [c] else acc
    pruneLoop rest counts acc

/-- Function `topk` (lines 234-333). Returns the selected rows, columns,
wrapped scores, updated constraint states and the pass-through
`inactive` mask; `none` models a raised exception. -/
def topk (beam_size : Nat) (inactive : List Nat) (scores : List (List (WithTop ℚ)))
    (hypotheses : List ConstrainedHypothesis)
    (best_ids best_word_ids : List Nat) (sequence_scores : List (WithTop ℚ)) :
    Option (List Nat × List Nat × List (List (WithTop ℚ)) × List ConstrainedHypothesis × List Nat) := do
  let h0 ← pyGet hypotheses 0
  let num_constraints := h0.size
  let cands ← topkPart1 hypotheses (best_ids.zip (best_word_ids.zip sequence_scores)) []
  let best_next ← scores.mapM idxOfMin
  let cands ← topkPart23 inactive scores hypotheses best_next (List.range beam_size) cands
  let new_kbest := sortStable Candidate.score cands
  let new_kbest ← padToBeam beam_size beam_size new_kbest
  let counts ← countBanks new_kbest (List.replicate (num_constraints + 1) 0)
  let bank_sizes ← get_bank_sizes num_constraints beam_size counts
    (beam_size + (counts.map Int.natAbs).sum + 2)
  let (_, pruned_candidates) ← pruneLoop new_kbest bank_sizes []
  let new_active_beam_size := pruned_candidates.length
  let pruned_candidates ←
    if pruned_candidates.length < beam_size then do
      let e ← pyGet pruned_candidates ((new_active_beam_size : Int) - 1)
      pure (pruned_candidates ++ List.replicate (beam_size - new_active_beam_size) e)
    else
      pure pruned_candidates
  pure (pruned_candidates.map Candidate.row,
        pruned_candidates.map Candidate.col,
        pruned_candidates.map (fun c => [c.score]),
        pruned_candidates.map Candidate.constraints,
        inactive)

/-- Structural invariant of every `ConstrainedHypothesis` the program
builds: parallel array lengths, `is_sequence` entries are bits with a
final `0`, `lastMet` is `-1` or a valid met index, a mid-phrase state
has its next position unmet, a met sequential position with an unmet
successor is exactly `lastMet`, and met positions of a phrase form a
prefix. -/
def Inv (s : ConstrainedHypothesis) : Prop :=
  s.is_sequence.length = s.constraints.length ∧
  s.met.length = s.constraints.length ∧
  (∀ v ∈ s.is_sequence, v = 0 ∨ v = 1) ∧
  (s.is_sequence ≠ [] → s.is_sequence.get? (s.is_sequence.length - 1) = some 0) ∧
  -1 ≤ s.lastMet ∧ s.lastMet < (s.constraints.length : Int) ∧
  (s.lastMet ≠ -1 → s.met.get? s.lastMet.toNat = some true) ∧
  (s.lastMet ≠ -1 → s.is_sequence.get? s.lastMet.toNat = some 1 →
    s.met.get? (s.lastMet.toNat + 1) = some false) ∧
  (∀ j : Fin s.constraints.length,
    s.met.get? (j : Nat) = some true → s.is_sequence.get? (j : Nat) = some 1 →
    s.met.get? ((j : Nat) + 1) = some false → s.lastMet = ((j : Nat) : Int)) ∧
  (∀ j : Fin s.constraints.length,
    s.met.get? ((j : Nat) + 1) = some true → s.is_sequence.get? (j : Nat) = some 1 →
    s.met.get? (j : Nat) = some true)

/-- States reachable in the program: produced by the constructor, or by
a successful `advance` from a reachable state. -/
inductive Reachable : ConstrainedHypothesis → Prop
  | init (constraint_list : List (List Nat)) (eos_id : Nat) (s : ConstrainedHypothesis)
      (h : ConstrainedHypothesis.init constraint_list eos_id = some s) : Reachable s
  | step (s : ConstrainedHypothesis) (word_id : Nat) (s' : ConstrainedHypothesis)
      (hs : Reachable s) (h : s.advance word_id = some s') : Reachable s'

/-- Start of the run of `1` entries of `seq` ending at `k`: the first
position of the phrase being rolled back by `advance`. -/
def runStart (seq : List Nat) : Nat → Nat
  | 0 => 0
  | k + 1 => if seq.get? k = some 1 then runStart seq k else k + 1

/-- Divergence predicate: `get_bank_sizes` never returns at this input: `none` at every fuel,
i.e. the Python `while` loop runs forever. -/
def getBankSizesDivergesAt (num_constraints beam_size : Nat) (candidates : List Int) : Prop :=
  ∀ fuel : Nat, get_bank_sizes num_constraints beam_size candidates fuel = none

/-- A concrete reachable state used by the witnesses below: the result
of `ConstrainedHypothesis([["a","b"]], eos)` with token ids 1, 2 and
end-of-sequence id 3 (the concrete scenario of the specification). -/
def exState : ConstrainedHypothesis :=
  { constraints := [1, 2], is_sequence := [1, 0], eos_id := 3,
    met := [false, false], lastMet := -1 }

/-- Position `j` is eligible in the scan of `allowed` (line 103) and in
the lookup tuple of `advance` (lines 158-160): unmet, and either initial
or preceded by a non-sequential entry. -/
def eligible (s : ConstrainedHypothesis) (j : Nat) : Prop :=
  s.met.get? j = some false ∧ (j = 0 ∨ s.is_sequence.get? (j - 1) = some 0)

/-- A concrete mid-phrase state used by witnesses: `exState` after
`advance(1)` (phrase `[1, 2]` started, first token met). -/
def exStateMid : ConstrainedHypothesis :=
  { constraints := [1, 2], is_sequence := [1, 0], eos_id := 3,
    met := [true, false], lastMet := 0 }

theorem pyGet_natCast (l : List α) (k : Nat) : pyGet l (k : Int) = l.get? k := by
  simp [pyGet]

theorem pySet_natCast (l : List α) (k : Nat) (v : α) (h : k < l.length) :
    pySet l (k : Int) v = some (l.set k v) := by
  simp [pySet, h]

theorem pyGet_neg_one (l : List α) (h : l ≠ []) :
    pyGet l (-1) = l.get? (l.length - 1) := by
  have hp : 0 < l.length := List.length_pos.mpr h
  have h1 : ((1 : Int) ≤ (l.length : Int)) := by exact_mod_cast hp
  simp [pyGet, h1]

theorem pySet_neg_one (l : List α) (h : l ≠ []) (v : α) :
    pySet l (-1) v = some (l.set (l.length - 1) v) := by
  have hp : 0 < l.length := List.length_pos.mpr h
  have h1 : ((1 : Int) ≤ (l.length : Int)) := by exact_mod_cast hp
  simp [pySet, h1]

theorem pySet_nil_neg_one (v : α) : pySet ([] : List α) (-1) v = none := by
  simp [pySet]

theorem buildArrays_spec (cl : List (List Nat)) :
    ∀ cons seq : List Nat,
    seq.length = cons.length →
    (∀ v ∈ seq, v = 0 ∨ v = 1) →
    (seq ≠ [] → seq.get? (seq.length - 1) = some 0) →
    ∀ {cons' seq' : List Nat}, ConstrainedHypothesis.buildArrays cl cons seq = some (cons', seq') →
    seq'.length = cons'.length ∧ (∀ v ∈ seq', v = 0 ∨ v = 1) ∧
      (seq' ≠ [] → seq'.get? (seq'.length - 1) = some 0) := by
  induction cl with
  | nil =>
    intro cons seq h1 h2 h3 cons' seq' h
    simp only [ConstrainedHypothesis.buildArrays, Option.some.injEq, Prod.mk.injEq] at h
    obtain ⟨rfl, rfl⟩ := h
    exact ⟨h1, h2, h3⟩
  | cons phrase rest ih =>
    intro cons seq h1 h2 h3 cons' seq' h
    simp only [ConstrainedHypothesis.buildArrays] at h
    cases hset : pySet (seq ++ List.replicate phrase.length 1) (-1) 0 with
    | none => rw [hset] at h; exact absurd h (by simp)
    | some seq1 =>
      rw [hset] at h
      have hne : seq ++ List.replicate phrase.length 1 ≠ [] := by
        intro hnil
        rw [hnil, pySet_nil_neg_one] at hset
        exact absurd hset (by simp)
      rw [pySet_neg_one _ hne] at hset
      have hseq1 : seq1 = (seq ++ List.replicate phrase.length 1).set
          ((seq ++ List.replicate phrase.length 1).length - 1) 0 := by
        exact (Option.some.injEq _ _ ▸ hset).symm
      have hlen0 : 0 < (seq ++ List.replicate phrase.length 1).length :=
        List.length_pos.mpr hne
      refine ih (cons ++ phrase) seq1 ?_ ?_ ?_ h
      · rw [hseq1]; simp [h1]
      · intro v hv
        rw [hseq1] at hv
        rcases List.mem_or_eq_of_mem_set hv with hv' | hv'
        · rcases List.mem_append.mp hv' with hv'' | hv''
          · exact h2 v hv''
          · right; exact List.eq_of_mem_replicate hv''
        · left; exact hv'
      · intro _
        rw [hseq1]
        have hlt : (seq ++ List.replicate phrase.length 1).length - 1 <
            (seq ++ List.replicate phrase.length 1).length := by omega
        rw [List.length_set]
        exact List.get?_set_eq_of_lt _ hlt

theorem init_inv {cl : List (List Nat)} {eos : Nat} {s : ConstrainedHypothesis}
    (h : ConstrainedHypothesis.init cl eos = some s) : Inv s := by
  simp only [ConstrainedHypothesis.init, Option.bind_eq_bind, Option.bind_eq_some] at h
  obtain ⟨⟨cons, seq⟩, hb, hs⟩ := h
  obtain ⟨hlen, hbits, hlast⟩ :=
    buildArrays_spec cl [] [] (by simp) (by simp) (by simp) hb
  simp only [Option.some.injEq] at hs
  subst hs
  refine ⟨hlen, by simp, hbits, hlast, by norm_num, ?_, ?_, ?_, ?_, ?_⟩
  · show (-1 : Int) < (cons.length : Int)
    omega
  · intro hc; exact absurd rfl hc
  · intro hc; exact absurd rfl hc
  · intro j hj
    have hmem := List.get?_mem hj
    exact absurd (List.eq_of_mem_replicate hmem) (by simp)
  · intro j hj
    have hmem := List.get?_mem hj
    exact absurd (List.eq_of_mem_replicate hmem) (by simp)

theorem findIdx?_some_spec {p : α → Bool} :
    ∀ {l : List α} {i : Nat}, l.findIdx? p = some i →
    ∃ a, l.get? i = some a ∧ p a = true ∧ ∀ j, j < i → ∀ b, l.get? j = some b → p b = false := by
  intro l
  induction l with
  | nil => intro i h; simp [List.findIdx?_nil] at h
  | cons x xs ih =>
    intro i h
    rw [List.findIdx?_cons] at h
    by_cases hp : p x
    · simp only [hp, if_true, Option.some.injEq] at h
      subst h
      exact ⟨x, rfl, hp, fun j hj => by omega⟩
    · simp only [hp] at h
      rw [if_neg (by simp [hp]), List.findIdx?_succ] at h
      cases hx : xs.findIdx? p with
      | none => rw [hx] at h; simp at h
      | some k =>
        rw [hx] at h
        simp at h
        subst h
        obtain ⟨a, ha, hpa, hprev⟩ := ih hx
        refine ⟨a, by simpa using ha, hpa, ?_⟩
        intro j hj b hb
        cases j with
        | zero =>
          simp only [List.get?] at hb
          cases hb
          exact Bool.not_eq_true _ ▸ (by simpa using hp)
        | succ j' =>
          exact hprev j' (by omega) b (by simpa using hb)

theorem rollbackLoop_stop (seq : List Nat) (fuel : Nat) (index : Int) (met : List Bool)
    (h : pyGet seq index = some 0) :
    ConstrainedHypothesis.rollbackLoop seq (fuel + 1) index met = some met := by
  rw [ConstrainedHypothesis.rollbackLoop, h]
  rfl

theorem rollbackLoop_step (seq : List Nat) (fuel : Nat) (index : Int) (met : List Bool)
    (v : Nat) (hv : pyGet seq index = some v) (hv0 : v ≠ 0)
    (met1 : List Bool) (hset : pySet met index false = some met1) :
    ConstrainedHypothesis.rollbackLoop seq (fuel + 1) index met =
      ConstrainedHypothesis.rollbackLoop seq fuel (index - 1) met1 := by
  rw [ConstrainedHypothesis.rollbackLoop, hv]
  simp only [Option.bind_eq_bind, Option.some_bind]
  rw [if_pos hv0, hset]
  simp only [Option.some_bind]

theorem runStart_le (seq : List Nat) : ∀ k : Nat, runStart seq k ≤ k := by
  intro k
  induction k with
  | zero => exact Nat.le_refl 0
  | succ k ih =>
    rw [runStart]
    split
    · exact ih.trans (by omega)
    · exact Nat.le_refl _

theorem rollbackLoop_spec (seq : List Nat)
    (hbits : ∀ v ∈ seq, v = 0 ∨ v = 1)
    (hlast : seq ≠ [] → seq.get? (seq.length - 1) = some 0) :
    ∀ k : Nat, ∀ met : List Bool, met.length = seq.length →
    k < seq.length → seq.get? k = some 1 →
    ∀ fuel : Nat, k + 2 ≤ fuel →
    ∃ met', ConstrainedHypothesis.rollbackLoop seq fuel (k : Int) met = some met' ∧
      met'.length = met.length ∧
      (∀ j : Nat, met'.get? j =
        if runStart seq k ≤ j ∧ j ≤ k then some false else met.get? j) := by
  intro k
  induction k with
  | zero =>
    intro met hlen hk hk1 fuel hfuel
    obtain ⟨f, rfl⟩ : ∃ f, fuel = f + 1 + 1 := ⟨fuel - 2, by omega⟩
    have hne : seq ≠ [] := List.ne_nil_of_length_pos hk
    have hget0 : pyGet seq ((0 : Nat) : Int) = some 1 := by
      rw [pyGet_natCast]; exact hk1
    have hset0 : pySet met ((0 : Nat) : Int) false = some (met.set 0 false) :=
      pySet_natCast met 0 false (by omega)
    refine ⟨met.set 0 false, ?_, by simp, ?_⟩
    · rw [rollbackLoop_step seq (f + 1) _ met 1 hget0 one_ne_zero _ hset0]
      have : ((0 : Nat) : Int) - 1 = -1 := by norm_num
      rw [this]
      exact rollbackLoop_stop seq f (-1) _ ((pyGet_neg_one seq hne).trans (hlast hne))
    · intro j
      rcases Nat.eq_zero_or_pos j with rfl | hj
      · simp only [runStart, Nat.le_refl, and_self, if_true]
        exact List.get?_set_eq_of_lt _ (by omega)
      · rw [if_neg (by omega)]
        exact List.get?_set_ne _ _ (by omega)
  | succ k ih =>
    intro met hlen hk hk1 fuel hfuel
    obtain ⟨f, rfl⟩ : ∃ f, fuel = f + 1 := ⟨fuel - 1, by omega⟩
    have hgetk1 : pyGet seq ((k + 1 : Nat) : Int) = some 1 := by
      rw [pyGet_natCast]; exact hk1
    have hsetk1 : pySet met ((k + 1 : Nat) : Int) false = some (met.set (k + 1) false) :=
      pySet_natCast met (k + 1) false (by omega)
    rw [rollbackLoop_step seq f _ met 1 hgetk1 one_ne_zero _ hsetk1]
    rw [show ((k + 1 : Nat) : Int) - 1 = ((k : Nat) : Int) by push_cast; ring]
    have hklen : k < seq.length := by omega
    obtain ⟨vk, hvk⟩ : ∃ v, seq.get? k = some v := by
      cases hv : seq.get? k with
      | none => exact absurd (List.get?_eq_none.mp hv) (by omega)
      | some v => exact ⟨v, rfl⟩
    by_cases hvk1 : vk = 1
    · subst hvk1
      obtain ⟨met', hrun, hlen', hpt⟩ :=
        ih (met.set (k + 1) false) (by simp [hlen]) hklen hvk f (by omega)
      refine ⟨met', hrun, by simpa using hlen', ?_⟩
      intro j
      have hrs : runStart seq (k + 1) = runStart seq k := by
        rw [runStart, if_pos hvk]
      have hrsk : runStart seq k ≤ k := runStart_le seq k
      rw [hrs]
      rcases Nat.lt_trichotomy j (k + 1) with hj | rfl | hj
      · by_cases hin : runStart seq k ≤ j
        · rw [if_pos ⟨hin, by omega⟩]
          rw [hpt j, if_pos ⟨hin, by omega⟩]
        · rw [if_neg (by omega)]
          rw [hpt j, if_neg (by omega)]
          exact List.get?_set_ne _ _ (by omega)
      · rw [if_pos ⟨by omega, by omega⟩]
        rw [hpt (k + 1), if_neg (by omega)]
        exact List.get?_set_eq_of_lt _ (by omega)
      · rw [if_neg (by omega)]
        rw [hpt j, if_neg (by omega)]
        exact List.get?_set_ne _ _ (by omega)
    · have hvk0 : vk = 0 := by
        rcases hbits vk (List.get?_mem hvk) with h0 | h1
        · exact h0
        · exact absurd h1 hvk1
      subst hvk0
      obtain ⟨f', rfl⟩ : ∃ f', f = f' + 1 := ⟨f - 1, by omega⟩
      rw [rollbackLoop_stop seq f' _ _ (by rw [pyGet_natCast]; exact hvk)]
      refine ⟨met.set (k + 1) false, rfl, by simp, ?_⟩
      intro j
      have hrs : runStart seq (k + 1) = k + 1 := by
        rw [runStart]
        split
        · rename_i hcon; rw [hvk] at hcon; simp at hcon
        · rfl
      rw [hrs]
      rcases Nat.lt_trichotomy j (k + 1) with hj | rfl | hj
      · rw [if_neg (by omega)]
        exact List.get?_set_ne _ _ (by omega)
      · rw [if_pos ⟨Nat.le_refl _, Nat.le_refl _⟩]
        exact List.get?_set_eq_of_lt _ (by omega)
      · rw [if_neg (by omega)]
        exact List.get?_set_ne _ _ (by omega)

theorem runStart_prev (seq : List Nat) :
    ∀ k : Nat, 0 < runStart seq k → seq.get? (runStart seq k - 1) ≠ some 1 := by
  intro k
  induction k with
  | zero => intro h; exact absurd h (by simp [runStart])
  | succ k ih =>
    rw [runStart]
    split
    · exact ih
    · rename_i hne
      intro _
      simpa using hne

theorem zip3_get?_spec {cons prevSeq : List Nat} {met : List Bool} {pos : Nat}
    {z : Nat × Nat × Bool} (h : (cons.zip (prevSeq.zip met)).get? pos = some z) :
    cons.get? pos = some z.1 ∧ prevSeq.get? pos = some z.2.1 ∧ met.get? pos = some z.2.2 := by
  rw [List.get?_eq_getElem?, List.getElem?_zip_eq_some] at h
  obtain ⟨h1, h2⟩ := h
  rw [List.getElem?_zip_eq_some] at h2
  refine ⟨?_, ?_, ?_⟩
  · rw [List.get?_eq_getElem?]; exact h1
  · rw [List.get?_eq_getElem?]; exact h2.1
  · rw [List.get?_eq_getElem?]; exact h2.2

theorem midPhrase_of_neg (s : ConstrainedHypothesis) (h : s.lastMet = -1) :
    s.midPhrase = some false := by
  simp [ConstrainedHypothesis.midPhrase, h]

theorem midPhrase_of_get (s : ConstrainedHypothesis) (h : s.lastMet ≠ -1) {v : Nat}
    (hv : pyGet s.is_sequence s.lastMet = some v) : s.midPhrase = some (v == 1) := by
  rw [ConstrainedHypothesis.midPhrase, if_neg (by simpa using h), hv]
  rfl

theorem advance_of_midfalse (s : ConstrainedHypothesis) (t : Nat)
    (h : s.midPhrase = some false) : s.advance t = some (s.elseBranch t) := by
  rw [ConstrainedHypothesis.advance, h]
  rfl

theorem advance_of_match (s : ConstrainedHypothesis) (t : Nat) (hmp : s.midPhrase = some true)
    (hw : pyGet s.constraints (s.lastMet + 1) = some t) {met1 : List Bool}
    (hset : pySet s.met (s.lastMet + 1) true = some met1) :
    s.advance t = some { s with met := met1, lastMet := s.lastMet + 1 } := by
  rw [ConstrainedHypothesis.advance, hmp]
  simp only [Option.bind_eq_bind, Option.some_bind, if_true]
  rw [hw]
  simp only [Option.some_bind, beq_self_eq_true, if_true]
  rw [hset]
  rfl

theorem advance_of_mismatch (s : ConstrainedHypothesis) (t w : Nat)
    (hmp : s.midPhrase = some true)
    (hw : pyGet s.constraints (s.lastMet + 1) = some w) (hne : t ≠ w) {met1 : List Bool}
    (hrb : ConstrainedHypothesis.rollbackLoop s.is_sequence
      (s.lastMet.toNat + s.is_sequence.length + 2) s.lastMet s.met = some met1) :
    s.advance t = some { s with met := met1, lastMet := -1 } := by
  rw [ConstrainedHypothesis.advance, hmp]
  simp only [Option.bind_eq_bind, Option.some_bind, if_true]
  rw [hw]
  simp only [Option.some_bind]
  rw [if_neg (by simpa using hne)]
  rw [hrb]
  rfl

theorem elseBranch_eq_of_none (s : ConstrainedHypothesis) (t : Nat)
    (hfind : (s.constraints.zip ((0 :: s.is_sequence.dropLast).zip s.met)).findIdx?
      (fun c => c.1 == t && c.2.1 == 0 && c.2.2 == false) = none) :
    s.elseBranch t = s := by
  simp only [ConstrainedHypothesis.elseBranch]
  rw [hfind]

theorem elseBranch_eq_of_some (s : ConstrainedHypothesis) (t : Nat) (pos : Nat)
    (hfind : (s.constraints.zip ((0 :: s.is_sequence.dropLast).zip s.met)).findIdx?
      (fun c => c.1 == t && c.2.1 == 0 && c.2.2 == false) = some pos) :
    s.elseBranch t = { s with met := s.met.set pos true, lastMet := (pos : Int) } := by
  simp only [ConstrainedHypothesis.elseBranch]
  rw [hfind]

theorem seq_lt_sub_one_of_get_one {s : ConstrainedHypothesis}
    (hLast : s.is_sequence ≠ [] → s.is_sequence.get? (s.is_sequence.length - 1) = some 0)
    {k : Nat} (hk : s.is_sequence.get? k = some 1) : k + 1 < s.is_sequence.length := by
  have hklen : k < s.is_sequence.length := by
    by_contra hcon
    rw [List.get?_eq_none.mpr (by omega)] at hk
    exact absurd hk (by simp)
  have hne : s.is_sequence ≠ [] := List.ne_nil_of_length_pos (by omega)
  by_contra hcon
  have hkeq : k = s.is_sequence.length - 1 := by omega
  rw [hkeq, hLast hne] at hk
  exact absurd hk (by simp)

theorem elseBranch_inv (s : ConstrainedHypothesis) (hInv : Inv s) (t : Nat)
    (hNM : s.lastMet = -1 ∨ s.is_sequence.get? s.lastMet.toNat ≠ some 1) :
    Inv (s.elseBranch t) ∧ (s.elseBranch t).constraints = s.constraints ∧
      (s.elseBranch t).is_sequence = s.is_sequence ∧ (s.elseBranch t).eos_id = s.eos_id := by
  obtain ⟨hL1, hL2, hBits, hLast, hLM1, hLM2, hMetLM, hC, hB, hD⟩ := hInv
  cases hfind : (s.constraints.zip ((0 :: s.is_sequence.dropLast).zip s.met)).findIdx?
      (fun c => c.1 == t && c.2.1 == 0 && c.2.2 == false) with
  | none =>
    rw [elseBranch_eq_of_none s t hfind]
    exact ⟨⟨hL1, hL2, hBits, hLast, hLM1, hLM2, hMetLM, hC, hB, hD⟩, rfl, rfl, rfl⟩
  | some pos =>
    rw [elseBranch_eq_of_some s t pos hfind]
    obtain ⟨z, hz, hpz, _⟩ := findIdx?_some_spec hfind
    obtain ⟨hz1, hz2, hz3⟩ := zip3_get?_spec hz
    have hzz : (z.1 = t ∧ z.2.1 = 0) ∧ z.2.2 = false := by
      simpa using hpz
    rw [hzz.2] at hz3
    have hposN : pos < s.constraints.length := by
      by_contra hcon
      rw [List.get?_eq_none.mpr (by omega)] at hz1
      exact absurd hz1 (by simp)
    have hposMet : pos < s.met.length := by omega
    have hprevZero : ∀ q : Nat, pos = q + 1 → s.is_sequence.get? q = some 0 := by
      intro q hq
      rw [hq] at hz2
      rw [hzz.1.2] at hz2
      simp only [List.get?] at hz2
      rw [List.get?_eq_getElem?, List.getElem?_dropLast] at hz2
      split at hz2
      · rw [List.get?_eq_getElem?]
        exact hz2
      · exact absurd hz2 (by simp)
    refine ⟨?_, rfl, rfl, rfl⟩
    unfold Inv
    simp only [List.length_set, Int.toNat_natCast]
    refine ⟨hL1, hL2, hBits, hLast, by omega, by exact_mod_cast hposN, ?_, ?_, ?_, ?_⟩
    · intro _
      exact List.get?_set_eq_of_lt _ hposMet
    · intro _ hseq1
      have hpos1 : pos + 1 < s.is_sequence.length := seq_lt_sub_one_of_get_one hLast hseq1
      obtain ⟨b, hb⟩ : ∃ b, s.met.get? (pos + 1) = some b := by
        rw [List.get?_eq_get (by omega : pos + 1 < s.met.length)]
        exact ⟨_, rfl⟩
      have hbf : b = false := by
        by_contra hcon
        have hbt : b = true := by cases b <;> simp_all
        rw [hbt] at hb
        have := hD ⟨pos, hposN⟩ hb hseq1
        rw [hz3] at this
        exact absurd this (by simp)
      rw [List.get?_set_ne _ _ (by omega), hb, hbf]
    · intro j hj1 hj2 hj3
      by_cases hjp : (j : Nat) = pos
      · rw [hjp]
      · rw [List.get?_set_ne _ _ (fun hcon => hjp hcon.symm)] at hj1
        by_cases hj1p : (j : Nat) + 1 = pos
        · rw [← hj1p, List.get?_set_eq_of_lt _ (by omega)] at hj3
          exact absurd hj3 (by simp)
        · rw [List.get?_set_ne _ _ (fun hcon => hj1p hcon.symm)] at hj3
          have hlm := hB j hj1 hj2 hj3
          rcases hNM with hNM | hNM
          · rw [hNM] at hlm
            exact absurd hlm (by omega)
          · rw [hlm, Int.toNat_natCast] at hNM
            exact absurd hj2 hNM
    · intro j hj1 hj2
      by_cases hj1p : (j : Nat) + 1 = pos
      · have := hprevZero (j : Nat) hj1p.symm
        rw [this] at hj2
        exact absurd hj2 (by simp)
      · rw [List.get?_set_ne _ _ (fun hcon => hj1p hcon.symm)] at hj1
        have hmj := hD j hj1 hj2
        by_cases hjp : (j : Nat) = pos
        · rw [← hjp] at hposMet ⊢
          exact List.get?_set_eq_of_lt _ hposMet
        · rw [List.get?_set_ne _ _ (fun hcon => hjp hcon.symm)]
          exact hmj

theorem advance_inv (s : ConstrainedHypothesis) (hInv : Inv s) (t : Nat) :
    ∃ s', s.advance t = some s' ∧ Inv s' ∧ s'.constraints = s.constraints ∧
      s'.is_sequence = s.is_sequence ∧ s'.eos_id = s.eos_id := by
  obtain ⟨hL1, hL2, hBits, hLast, hLM1, hLM2, hMetLM, hC, hB, hD⟩ := id hInv
  by_cases hLM : s.lastMet = -1
  · obtain ⟨hi, hc, hsq, he⟩ := elseBranch_inv s hInv t (Or.inl hLM)
    exact ⟨s.elseBranch t, advance_of_midfalse s t (midPhrase_of_neg s hLM), hi, hc, hsq, he⟩
  · have hk0 : 0 ≤ s.lastMet := by omega
    set k := s.lastMet.toNat with hkdef
    have hkcast : s.lastMet = (k : Int) := (Int.toNat_of_nonneg hk0).symm
    have hkN : k < s.constraints.length := by omega
    have hkSeq : k < s.is_sequence.length := by omega
    obtain ⟨v, hv⟩ : ∃ v, s.is_sequence.get? k = some v := by
      rw [List.get?_eq_get hkSeq]; exact ⟨_, rfl⟩
    have hpg : pyGet s.is_sequence s.lastMet = some v := by
      rw [hkcast, pyGet_natCast]; exact hv
    have hMk : s.met.get? k = some true := hMetLM hLM
    by_cases hv1 : v = 1
    · subst hv1
      have hmp : s.midPhrase = some true := by
        rw [midPhrase_of_get s hLM hpg]
        rfl
      have hmetf : s.met.get? (k + 1) = some false := hC hLM hv
      have hk1Seq : k + 1 < s.is_sequence.length := seq_lt_sub_one_of_get_one hLast hv
      have hk1N : k + 1 < s.constraints.length := by omega
      obtain ⟨w, hw⟩ : ∃ w, s.constraints.get? (k + 1) = some w := by
        rw [List.get?_eq_get hk1N]; exact ⟨_, rfl⟩
      have hcast1 : s.lastMet + 1 = ((k + 1 : Nat) : Int) := by
        rw [hkcast]; push_cast; ring
      have hwpg : pyGet s.constraints (s.lastMet + 1) = some w := by
        rw [hcast1, pyGet_natCast]; exact hw
      by_cases htw : t = w
      · have hwpg' : pyGet s.constraints (s.lastMet + 1) = some t := by rw [htw]; exact hwpg
        have hset : pySet s.met (s.lastMet + 1) true = some (s.met.set (k + 1) true) := by
          rw [hcast1]
          exact pySet_natCast _ _ _ (by omega)
        refine ⟨_, advance_of_match s t hmp hwpg' hset, ?_, rfl, rfl, rfl⟩
        unfold Inv
        simp only [List.length_set, hcast1, Int.toNat_natCast]
        refine ⟨hL1, hL2, hBits, hLast, by omega, by exact_mod_cast hk1N, ?_, ?_, ?_, ?_⟩
        · intro _
          exact List.get?_set_eq_of_lt _ (by omega)
        · intro _ hs1
          have hk2Seq : k + 1 + 1 < s.is_sequence.length := seq_lt_sub_one_of_get_one hLast hs1
          obtain ⟨b, hb⟩ : ∃ b, s.met.get? (k + 1 + 1) = some b := by
            rw [List.get?_eq_get (by omega : k + 1 + 1 < s.met.length)]; exact ⟨_, rfl⟩
          have hbf : b = false := by
            by_contra hcon
            have hbt : b = true := by
              cases b with
              | false => exact absurd rfl hcon
              | true => rfl
            rw [hbt] at hb
            have := hD ⟨k + 1, hk1N⟩ (by simpa using hb) hs1
            rw [hmetf] at this
            exact absurd this (by simp)
          rw [List.get?_set_ne _ _ (by omega), hb, hbf]
        · intro j hj1 hj2 hj3
          by_cases hjk1 : (j : Nat) = k + 1
          · rw [hjk1]
          · rw [List.get?_set_ne _ _ (fun hcon => hjk1 hcon.symm)] at hj1
            by_cases hj1k1 : (j : Nat) + 1 = k + 1
            · rw [hj1k1, List.get?_set_eq_of_lt _ (by omega)] at hj3
              exact absurd hj3 (by simp)
            · rw [List.get?_set_ne _ _ (fun hcon => hj1k1 hcon.symm)] at hj3
              have hlm := hB j hj1 hj2 hj3
              rw [hkcast] at hlm
              have hjk : k = (j : Nat) := by exact_mod_cast hlm
              omega
        · intro j hj1 hj2
          by_cases hj1k1 : (j : Nat) + 1 = k + 1
          · have hjk : (j : Nat) = k := by omega
            rw [List.get?_set_ne _ _ (by omega), hjk]
            exact hMk
          · rw [List.get?_set_ne _ _ (fun hcon => hj1k1 hcon.symm)] at hj1
            have hmj := hD j hj1 hj2
            by_cases hjk1 : (j : Nat) = k + 1
            · rw [hjk1]
              exact List.get?_set_eq_of_lt _ (by omega)
            · rw [List.get?_set_ne _ _ (fun hcon => hjk1 hcon.symm)]
              exact hmj
      · obtain ⟨met', hrb, hlen', hpt⟩ := rollbackLoop_spec s.is_sequence hBits hLast k s.met
          (by omega) hkSeq hv (k + s.is_sequence.length + 2) (by omega)
        have hrb' : ConstrainedHypothesis.rollbackLoop s.is_sequence
            (s.lastMet.toNat + s.is_sequence.length + 2) s.lastMet s.met = some met' := by
          rw [hkcast, Int.toNat_natCast]
          exact hrb
        have hrsk : runStart s.is_sequence k ≤ k := runStart_le s.is_sequence k
        refine ⟨_, advance_of_mismatch s t w hmp hwpg htw hrb', ?_, rfl, rfl, rfl⟩
        unfold Inv
        simp only
        refine ⟨hL1, by omega, hBits, hLast, by omega, by omega, ?_, ?_, ?_, ?_⟩
        · intro hcon; exact absurd rfl hcon
        · intro hcon; exact absurd rfl hcon
        · intro j hj1 hj2 hj3
          exfalso
          rw [hpt (j : Nat)] at hj1
          by_cases hjin : runStart s.is_sequence k ≤ (j : Nat) ∧ (j : Nat) ≤ k
          · rw [if_pos hjin] at hj1
            exact absurd hj1 (by simp)
          · rw [if_neg hjin] at hj1
            rw [hpt ((j : Nat) + 1)] at hj3
            by_cases hj1in : runStart s.is_sequence k ≤ (j : Nat) + 1 ∧ (j : Nat) + 1 ≤ k
            · have hrs0 : 0 < runStart s.is_sequence k := by omega
              have hrseq : runStart s.is_sequence k = (j : Nat) + 1 := by omega
              have hprev := runStart_prev s.is_sequence k hrs0
              rw [hrseq] at hprev
              simp only [Nat.add_sub_cancel] at hprev
              exact absurd hj2 hprev
            · rw [if_neg hj1in] at hj3
              have hlm := hB j hj1 hj2 hj3
              rw [hkcast] at hlm
              have hjk : k = (j : Nat) := by exact_mod_cast hlm
              omega
        · intro j hj1 hj2
          rw [hpt ((j : Nat) + 1)] at hj1
          by_cases hj1in : runStart s.is_sequence k ≤ (j : Nat) + 1 ∧ (j : Nat) + 1 ≤ k
          · rw [if_pos hj1in] at hj1
            exact absurd hj1 (by simp)
          · rw [if_neg hj1in] at hj1
            have hmj := hD j hj1 hj2
            rw [hpt (j : Nat)]
            by_cases hjin : runStart s.is_sequence k ≤ (j : Nat) ∧ (j : Nat) ≤ k
            · exfalso
              have hjk : (j : Nat) = k := by omega
              rw [hjk] at hj1
              rw [hmetf] at hj1
              exact absurd hj1 (by simp)
            · rw [if_neg hjin]
              exact hmj
    · have hmp : s.midPhrase = some false := by
        rw [midPhrase_of_get s hLM hpg]
        simp [hv1]
      obtain ⟨hi, hc, hsq, he⟩ := elseBranch_inv s hInv t (Or.inr (by
        intro hcon
        rw [show s.is_sequence.get? s.lastMet.toNat = some v from hv] at hcon
        exact hv1 (by simpa using hcon)))
      exact ⟨s.elseBranch t, advance_of_midfalse s t hmp, hi, hc, hsq, he⟩

theorem reachable_inv {s : ConstrainedHypothesis} (h : Reachable s) : Inv s := by
  induction h with
  | init cl eos s h => exact init_inv h
  | step s t s' hs h ih =>
    obtain ⟨s2, hadv, hinv, _, _, _⟩ := advance_inv s ih t
    rw [hadv] at h
    injection h with h
    exact h ▸ hinv

theorem exState_reachable : Reachable exState :=
  Reachable.init [[1, 2]] 3 exState rfl

/-- C1: for every reachable `ConstrainedHypothesis` state and every
token id `t`, `isValid(t)` is true iff `finished()` is true or `t`
differs from the end-of-sequence id; in particular
`isValid(endOfSequenceId)` is false exactly when `numNeeded() > 0`. -/
theorem C1_isValid_iff (s : ConstrainedHypothesis) (hs : Reachable s) (t : Nat) :
    (s.isValid t = true ↔ (s.finished = true ∨ t ≠ s.eos_id)) ∧
    (s.isValid s.eos_id = false ↔ 0 < s.numNeeded) := by
  obtain ⟨hL1, hL2, _, _, _, _, _, _, _, _⟩ := reachable_inv hs
  have hcount : s.numMet ≤ s.size := by
    have hle := List.count_le_length true s.met
    unfold ConstrainedHypothesis.numMet ConstrainedHypothesis.size
    omega
  constructor
  · simp [ConstrainedHypothesis.isValid]
  · have hval : s.isValid s.eos_id = s.finished := by
      simp [ConstrainedHypothesis.isValid]
    rw [hval]
    have h0 : 0 ≤ s.numNeeded := by
      unfold ConstrainedHypothesis.numNeeded
      omega
    unfold ConstrainedHypothesis.finished
    rw [beq_eq_false_iff_ne]
    constructor
    · intro h; omega
    · intro h; omega

/-- Witness for C1 at the concrete reachable start state of the
one-phrase scenario. -/
theorem C1_isValid_iff_witness :
    (exState.isValid 5 = true ↔ (exState.finished = true ∨ 5 ≠ exState.eos_id)) ∧
    (exState.isValid exState.eos_id = false ↔ 0 < exState.numNeeded) :=
  C1_isValid_iff exState exState_reachable 5

theorem allowedLoop_cons (s : ConstrainedHypothesis) (i : Nat) (x : Nat) (rest : List Nat) :
    ConstrainedHypothesis.allowedLoop s i (x :: rest) = (do
      let m ← pyGet s.met (i : Int)
      let keep ←
        if m then pure false
        else if i == 0 then pure true
        else do
          let v ← pyGet s.is_sequence ((i : Int) - 1)
          pure (v == 0)
      let tail ← ConstrainedHypothesis.allowedLoop s (i + 1) rest
      pure (if keep then x :: tail else tail)) := rfl

theorem allowedLoop_spec (s : ConstrainedHypothesis)
    (hL1 : s.is_sequence.length = s.constraints.length)
    (hL2 : s.met.length = s.constraints.length) :
    ∀ d i : Nat, s.constraints.length - i = d →
    ∃ L, ConstrainedHypothesis.allowedLoop s i (s.constraints.drop i) = some L ∧
      ∀ x : Nat, x ∈ L ↔ ∃ j, i ≤ j ∧ j < s.constraints.length ∧
        s.constraints.get? j = some x ∧ eligible s j := by
  intro d
  induction d with
  | zero =>
    intro i hi
    rw [List.drop_eq_nil_of_le (by omega)]
    refine ⟨[], rfl, ?_⟩
    intro x
    simp only [List.not_mem_nil, false_iff, not_exists, not_and]
    intro j h1 h2
    omega
  | succ d ih =>
    intro i hi
    have hiN : i < s.constraints.length := by omega
    have hgi : s.constraints.get? i = some (s.constraints.get ⟨i, hiN⟩) :=
      List.get?_eq_get hiN
    obtain ⟨m, hm⟩ : ∃ m, s.met.get? i = some m := by
      rw [List.get?_eq_get (by omega : i < s.met.length)]; exact ⟨_, rfl⟩
    obtain ⟨L, hL, hmem⟩ := ih (i + 1) (by omega)
    have hdrop : s.constraints.drop i =
        s.constraints.get ⟨i, hiN⟩ :: s.constraints.drop (i + 1) := by
      simpa using List.drop_eq_getElem_cons hiN
    cases m with
    | true =>
      have hstep : ConstrainedHypothesis.allowedLoop s i (s.constraints.drop i) = some L := by
        rw [hdrop, allowedLoop_cons, pyGet_natCast, hm]
        simp [hL]
      refine ⟨L, hstep, ?_⟩
      intro x
      rw [hmem x]
      constructor
      · rintro ⟨j, hj1, hj2, hj3, hj4⟩
        exact ⟨j, by omega, hj2, hj3, hj4⟩
      · rintro ⟨j, hj1, hj2, hj3, hj4⟩
        refine ⟨j, ?_, hj2, hj3, hj4⟩
        rcases Nat.eq_or_lt_of_le hj1 with rfl | hj1
        · have hmf := hj4.1
          rw [hm] at hmf
          exact absurd hmf (by simp)
        · omega
    | false =>
      by_cases hi0 : i = 0
      · subst hi0
        have hstep : ConstrainedHypothesis.allowedLoop s 0 (s.constraints.drop 0) =
            some (s.constraints.get ⟨0, hiN⟩ :: L) := by
          rw [hdrop, allowedLoop_cons, pyGet_natCast, hm]
          have hL2' : ConstrainedHypothesis.allowedLoop s 1 s.constraints.tail = some L := by
            simpa using hL
          simp [hL2']
        refine ⟨_, hstep, ?_⟩
        intro x
        simp only [List.mem_cons]
        constructor
        · rintro (rfl | hx)
          · exact ⟨0, Nat.le_refl 0, hiN, hgi, hm, Or.inl rfl⟩
          · obtain ⟨j, hj1, hj2, hj3, hj4⟩ := (hmem x).mp hx
            exact ⟨j, by omega, hj2, hj3, hj4⟩
        · rintro ⟨j, hj1, hj2, hj3, hj4⟩
          rcases Nat.eq_zero_or_pos j with rfl | hj
          · left
            rw [hgi] at hj3
            exact (Option.some.injEq _ _ ▸ hj3).symm
          · right
            exact (hmem x).mpr ⟨j, by omega, hj2, hj3, hj4⟩
      · have hi1 : 1 ≤ i := by omega
        obtain ⟨v, hv⟩ : ∃ v, s.is_sequence.get? (i - 1) = some v := by
          rw [List.get?_eq_get (by omega : i - 1 < s.is_sequence.length)]; exact ⟨_, rfl⟩
        have hvpg : pyGet s.is_sequence ((i : Int) - 1) = some v := by
          rw [show (i : Int) - 1 = ((i - 1 : Nat) : Int) by omega, pyGet_natCast]
          exact hv
        by_cases hv0 : v = 0
        · subst hv0
          have hstep : ConstrainedHypothesis.allowedLoop s i (s.constraints.drop i) =
              some (s.constraints.get ⟨i, hiN⟩ :: L) := by
            rw [hdrop, allowedLoop_cons, pyGet_natCast, hm]
            simp [hi0, hvpg, hL]
          refine ⟨_, hstep, ?_⟩
          intro x
          simp only [List.mem_cons]
          constructor
          · rintro (rfl | hx)
            · exact ⟨i, Nat.le_refl i, hiN, hgi, hm, Or.inr hv⟩
            · obtain ⟨j, hj1, hj2, hj3, hj4⟩ := (hmem x).mp hx
              exact ⟨j, by omega, hj2, hj3, hj4⟩
          · rintro ⟨j, hj1, hj2, hj3, hj4⟩
            rcases Nat.eq_or_lt_of_le hj1 with rfl | hj1
            · left
              rw [hgi] at hj3
              exact (Option.some.injEq _ _ ▸ hj3).symm
            · right
              exact (hmem x).mpr ⟨j, by omega, hj2, hj3, hj4⟩
        · have hstep : ConstrainedHypothesis.allowedLoop s i (s.constraints.drop i) =
              some L := by
            rw [hdrop, allowedLoop_cons, pyGet_natCast, hm]
            simp [hi0, hvpg, hv0, hL]
          refine ⟨L, hstep, ?_⟩
          intro x
          rw [hmem x]
          constructor
          · rintro ⟨j, hj1, hj2, hj3, hj4⟩
            exact ⟨j, by omega, hj2, hj3, hj4⟩
          · rintro ⟨j, hj1, hj2, hj3, hj4⟩
            refine ⟨j, ?_, hj2, hj3, hj4⟩
            rcases Nat.eq_or_lt_of_le hj1 with rfl | hj1
            · exfalso
              rcases hj4.2 with hj0 | hjseq
              · omega
              · rw [hv] at hjseq
                exact hv0 (by simpa using hjseq)
            · omega

theorem allowed_of_midfalse (s : ConstrainedHypothesis) (h : s.midPhrase = some false) :
    s.allowed = ConstrainedHypothesis.allowedLoop s 0 s.constraints := by
  rw [ConstrainedHypothesis.allowed, h]
  rfl

theorem allowed_of_midtrue (s : ConstrainedHypothesis) (h : s.midPhrase = some true) {w : Nat}
    (hw : pyGet s.constraints (s.lastMet + 1) = some w) : s.allowed = some [w] := by
  rw [ConstrainedHypothesis.allowed, h]
  simp only [Option.bind_eq_bind, Option.some_bind, if_true]
  rw [hw]
  rfl

theorem finished_iff (s : ConstrainedHypothesis)
    (hL2 : s.met.length = s.constraints.length) :
    s.finished = true ↔ ∀ b ∈ s.met, b = true := by
  unfold ConstrainedHypothesis.finished ConstrainedHypothesis.numNeeded
    ConstrainedHypothesis.numMet ConstrainedHypothesis.size
  rw [beq_iff_eq]
  have hcle := List.count_le_length true s.met
  constructor
  · intro h b hb
    have hcnt : s.met.count true = s.met.length := by omega
    exact (List.count_eq_length.mp hcnt b hb).symm
  · intro h
    have hcnt : s.met.count true = s.met.length :=
      List.count_eq_length.mpr (fun b hb => (h b hb).symm)
    omega

theorem not_finished_of_get_false (s : ConstrainedHypothesis)
    (hL2 : s.met.length = s.constraints.length) {j : Nat}
    (hj : s.met.get? j = some false) : s.finished = false := by
  cases hfin : s.finished with
  | false => rfl
  | true =>
    have hall := (finished_iff s hL2).mp hfin
    have := hall false (List.get?_mem hj)
    exact absurd this (by simp)

theorem midPhrase_some_of_inv (s : ConstrainedHypothesis) (hInv : Inv s) :
    ∃ b, s.midPhrase = some b := by
  obtain ⟨hL1, hL2, hBits, hLast, hLM1, hLM2, hMetLM, hC, hB, hD⟩ := hInv
  by_cases hLM : s.lastMet = -1
  · exact ⟨false, midPhrase_of_neg s hLM⟩
  · have hk0 : 0 ≤ s.lastMet := by omega
    have hkSeq : s.lastMet.toNat < s.is_sequence.length := by omega
    obtain ⟨v, hv⟩ : ∃ v, s.is_sequence.get? s.lastMet.toNat = some v := by
      rw [List.get?_eq_get hkSeq]; exact ⟨_, rfl⟩
    refine ⟨v == 1, midPhrase_of_get s hLM ?_⟩
    rw [show s.lastMet = (s.lastMet.toNat : Int) from (Int.toNat_of_nonneg hk0).symm,
      pyGet_natCast]
    exact hv

theorem allowed_spec (s : ConstrainedHypothesis) (hInv : Inv s) :
    ∃ L, s.allowed = some L ∧
      (s.midPhrase = some true →
        ∃ w, pyGet s.constraints (s.lastMet + 1) = some w ∧ L = [w]) ∧
      (s.midPhrase = some false →
        ∀ x : Nat, x ∈ L ↔ ∃ j, j < s.constraints.length ∧
          s.constraints.get? j = some x ∧ eligible s j) ∧
      (L = [] ↔ s.finished = true) := by
  obtain ⟨hL1, hL2, hBits, hLast, hLM1, hLM2, hMetLM, hC, hB, hD⟩ := id hInv
  obtain ⟨mp, hmp⟩ := midPhrase_some_of_inv s hInv
  cases mp with
  | true =>
    have hLM : s.lastMet ≠ -1 := by
      intro hcon
      rw [midPhrase_of_neg s hcon] at hmp
      exact absurd hmp (by simp)
    have hk0 : 0 ≤ s.lastMet := by omega
    have hkcast : s.lastMet = (s.lastMet.toNat : Int) := (Int.toNat_of_nonneg hk0).symm
    have hkSeq : s.lastMet.toNat < s.is_sequence.length := by omega
    obtain ⟨v, hv⟩ : ∃ v, s.is_sequence.get? s.lastMet.toNat = some v := by
      rw [List.get?_eq_get hkSeq]; exact ⟨_, rfl⟩
    have hpg : pyGet s.is_sequence s.lastMet = some v := by
      rw [hkcast, pyGet_natCast]; exact hv
    have hv1 : v = 1 := by
      by_contra hcon
      rw [midPhrase_of_get s hLM hpg] at hmp
      simp only [Option.some.injEq] at hmp
      exact hcon (by simpa using hmp)
    subst hv1
    have hmetf : s.met.get? (s.lastMet.toNat + 1) = some false := hC hLM hv
    have hk1Seq : s.lastMet.toNat + 1 < s.is_sequence.length :=
      seq_lt_sub_one_of_get_one hLast hv
    have hk1N : s.lastMet.toNat + 1 < s.constraints.length := by omega
    obtain ⟨w, hw⟩ : ∃ w, s.constraints.get? (s.lastMet.toNat + 1) = some w := by
      rw [List.get?_eq_get hk1N]; exact ⟨_, rfl⟩
    have hwpg : pyGet s.constraints (s.lastMet + 1) = some w := by
      rw [show s.lastMet + 1 = ((s.lastMet.toNat + 1 : Nat) : Int) by omega, pyGet_natCast]
      exact hw
    refine ⟨[w], allowed_of_midtrue s hmp hwpg, ?_, ?_, ?_⟩
    · intro _
      exact ⟨w, hwpg, rfl⟩
    · intro hcon
      rw [hmp] at hcon
      exact absurd hcon (by simp)
    · constructor
      · intro hcon
        exact absurd hcon (by simp)
      · intro hfin
        rw [not_finished_of_get_false s hL2 hmetf] at hfin
        exact absurd hfin (by simp)
  | false =>
    obtain ⟨L, hLoop, hmem⟩ :=
      allowedLoop_spec s hL1 hL2 (s.constraints.length - 0) 0 rfl
    rw [List.drop_zero] at hLoop
    have hall : s.allowed = some L := by
      rw [allowed_of_midfalse s hmp, hLoop]
    have hmem' : ∀ x : Nat, x ∈ L ↔ ∃ j, j < s.constraints.length ∧
        s.constraints.get? j = some x ∧ eligible s j := by
      intro x
      rw [hmem x]
      constructor
      · rintro ⟨j, _, hj2, hj3, hj4⟩
        exact ⟨j, hj2, hj3, hj4⟩
      · rintro ⟨j, hj2, hj3, hj4⟩
        exact ⟨j, by omega, hj2, hj3, hj4⟩
    refine ⟨L, hall, ?_, fun _ => hmem', ?_⟩
    · intro hcon
      rw [hmp] at hcon
      exact absurd hcon (by simp)
    · constructor
      · intro hLnil
        have hallmet : ∀ j, j < s.constraints.length → s.met.get? j = some true := by
          intro j
          induction j using Nat.strong_induction_on with
          | _ j ihj =>
            intro hjN
            obtain ⟨b, hb⟩ : ∃ b, s.met.get? j = some b := by
              rw [List.get?_eq_get (by omega : j < s.met.length)]; exact ⟨_, rfl⟩
            cases b with
            | true => exact hb
            | false =>
              exfalso
              obtain ⟨x, hx⟩ : ∃ x, s.constraints.get? j = some x := by
                rw [List.get?_eq_get hjN]; exact ⟨_, rfl⟩
              have hnelig : ¬ eligible s j := by
                intro helig
                have hxL : x ∈ L := (hmem' x).mpr ⟨j, hjN, hx, helig⟩
                rw [hLnil] at hxL
                exact absurd hxL (by simp)
              have hnor : ¬(j = 0 ∨ s.is_sequence.get? (j - 1) = some 0) :=
                fun hor => hnelig ⟨hb, hor⟩
              push_neg at hnor
              obtain ⟨hj0, hseq0⟩ := hnor
              have hj1 : 1 ≤ j := by omega
              obtain ⟨v, hv⟩ : ∃ v, s.is_sequence.get? (j - 1) = some v := by
                rw [List.get?_eq_get (by omega : j - 1 < s.is_sequence.length)]
                exact ⟨_, rfl⟩
              have hv1 : v = 1 := by
                rcases hBits v (List.get?_mem hv) with h0 | h1
                · rw [h0] at hv; exact absurd hv hseq0
                · exact h1
              subst hv1
              have hmetj1 : s.met.get? (j - 1) = some true := ihj (j - 1) (by omega) (by omega)
              have hlm := hB ⟨j - 1, by omega⟩ hmetj1 hv
                (by rw [show j - 1 + 1 = j by omega]; exact hb)
              have hmp2 : s.midPhrase = some true := by
                have hLM2' : s.lastMet ≠ -1 := by rw [hlm]; omega
                have hpg2 : pyGet s.is_sequence s.lastMet = some 1 := by
                  rw [hlm, pyGet_natCast]
                  exact hv
                rw [midPhrase_of_get s hLM2' hpg2]
                rfl
              rw [hmp] at hmp2
              exact absurd hmp2 (by simp)
        rw [finished_iff s hL2]
        intro b hb
        obtain ⟨n, hn⟩ := List.mem_iff_get?.mp hb
        have hnN : n < s.constraints.length := by
          have : n < s.met.length := by
            by_contra hcon
            rw [List.get?_eq_none.mpr (by omega)] at hn
            exact absurd hn (by simp)
          omega
        rw [hallmet n hnN] at hn
        exact (Option.some.injEq _ _ ▸ hn).symm
      · intro hfin
        have hall2 := (finished_iff s hL2).mp hfin
        rw [List.eq_nil_iff_forall_not_mem]
        intro x hx
        obtain ⟨j, _, _, helig⟩ := (hmem' x).mp hx
        have := hall2 false (List.get?_mem helig.1)
        exact absurd this (by simp)

theorem midPhrase_true_elim (s : ConstrainedHypothesis) (hInv : Inv s)
    (hmp : s.midPhrase = some true) :
    s.lastMet ≠ -1 ∧ 0 ≤ s.lastMet ∧ s.is_sequence.get? s.lastMet.toNat = some 1 := by
  obtain ⟨hL1, hL2, hBits, hLast, hLM1, hLM2, hMetLM, hC, hB, hD⟩ := id hInv
  have hLM : s.lastMet ≠ -1 := by
    intro hcon
    rw [midPhrase_of_neg s hcon] at hmp
    exact absurd hmp (by simp)
  have hk0 : 0 ≤ s.lastMet := by omega
  have hkSeq : s.lastMet.toNat < s.is_sequence.length := by omega
  obtain ⟨v, hv⟩ : ∃ v, s.is_sequence.get? s.lastMet.toNat = some v := by
    rw [List.get?_eq_get hkSeq]; exact ⟨_, rfl⟩
  have hpg : pyGet s.is_sequence s.lastMet = some v := by
    rw [show s.lastMet = (s.lastMet.toNat : Int) from (Int.toNat_of_nonneg hk0).symm,
      pyGet_natCast]
    exact hv
  have hv1 : v = 1 := by
    by_contra hcon
    rw [midPhrase_of_get s hLM hpg] at hmp
    simp only [Option.some.injEq] at hmp
    exact hcon (by simpa using hmp)
  exact ⟨hLM, hk0, hv1 ▸ hv⟩

/-- C6: for every reachable state, `allowed()` returns exactly one token
(namely `tokens[lastMet+1]`) when the state is mid-phrase in a
sequential constraint; it returns the empty list exactly when
`finished()` is true; and otherwise it returns exactly the not-yet-met
constraint tokens at position 0 or whose predecessor is not a
sequential link. -/
theorem C6_allowed (s : ConstrainedHypothesis) (hs : Reachable s) :
    ∃ L, s.allowed = some L ∧
      (s.midPhrase = some true →
        ∃ w, pyGet s.constraints (s.lastMet + 1) = some w ∧ L = [w]) ∧
      (L = [] ↔ s.finished = true) ∧
      (s.midPhrase = some false →
        ∀ x : Nat, x ∈ L ↔ ∃ j, j < s.constraints.length ∧
          s.constraints.get? j = some x ∧ s.met.get? j = some false ∧
          (j = 0 ∨ s.is_sequence.get? (j - 1) = some 0)) := by
  obtain ⟨L, h1, h2, h3, h4⟩ := allowed_spec s (reachable_inv hs)
  exact ⟨L, h1, h2, h4, h3⟩

/-- Witness for C6 at the concrete reachable start state of the
one-phrase scenario (not mid-phrase, one unmet constraint, so
`allowed() = [1]` and `finished()` is false). -/
theorem C6_allowed_witness :
    ∃ L, exState.allowed = some L ∧
      (exState.midPhrase = some true →
        ∃ w, pyGet exState.constraints (exState.lastMet + 1) = some w ∧ L = [w]) ∧
      (L = [] ↔ exState.finished = true) ∧
      (exState.midPhrase = some false →
        ∀ x : Nat, x ∈ L ↔ ∃ j, j < exState.constraints.length ∧
          exState.constraints.get? j = some x ∧ exState.met.get? j = some false ∧
          (j = 0 ∨ exState.is_sequence.get? (j - 1) = some 0)) :=
  C6_allowed exState exState_reachable

/-- C9 (implicit): under the structural invariant every index access of
`allowed()` and `advance()` stays in range — both functions return a
value rather than raising. Because the constructor forces the final
`is_sequence` entry to 0, a mid-phrase state has `lastMet + 1` a valid
index, and the rollback walk's wrap-around read at index `-1` sees that
final 0 entry and stops. -/
theorem C9_index_safety (s : ConstrainedHypothesis) (hInv : Inv s) :
    (∃ L, s.allowed = some L) ∧
    (∀ t : Nat, ∃ s', s.advance t = some s') ∧
    (s.midPhrase = some true → s.lastMet.toNat + 1 < s.constraints.length) ∧
    (s.is_sequence ≠ [] → pyGet s.is_sequence (-1) = some 0) := by
  obtain ⟨hL1, hL2, hBits, hLast, hLM1, hLM2, hMetLM, hC, hB, hD⟩ := id hInv
  refine ⟨?_, ?_, ?_, ?_⟩
  · obtain ⟨L, h1, _⟩ := allowed_spec s hInv
    exact ⟨L, h1⟩
  · intro t
    obtain ⟨s', h, _⟩ := advance_inv s hInv t
    exact ⟨s', h⟩
  · intro hmp
    obtain ⟨_, _, hseq1⟩ := midPhrase_true_elim s hInv hmp
    have := seq_lt_sub_one_of_get_one hLast hseq1
    omega
  · intro hne
    rw [pyGet_neg_one _ hne]
    exact hLast hne

theorem exStateMid_inv : Inv exStateMid := by
  unfold Inv
  decide

/-- Witness for C9 at the concrete mid-phrase state. -/
theorem C9_index_safety_witness :
    (∃ L, exStateMid.allowed = some L) ∧
    (∀ t : Nat, ∃ s', exStateMid.advance t = some s') ∧
    (exStateMid.midPhrase = some true →
      exStateMid.lastMet.toNat + 1 < exStateMid.constraints.length) ∧
    (exStateMid.is_sequence ≠ [] → pyGet exStateMid.is_sequence (-1) = some 0) :=
  C9_index_safety exStateMid exStateMid_inv

/-- C4: abandoning a partially matched phrase. For every invariant
mid-phrase state and token `t` different from the expected next token
`tokens[lastMet+1]`, `advance(t)` succeeds, resets `lastMet` to `-1`,
and unmarks exactly the met positions of the partially matched phrase
(the run `runStart .. lastMet`); if the phrase was the only progress so
far, the resulting `met` array is the all-false array of the unadvanced
start state and `lastMet` is `-1`, so the state equals the constructor's
start state. -/
theorem C4_rollback (s : ConstrainedHypothesis) (hInv : Inv s)
    (hmp : s.midPhrase = some true) (w : Nat)
    (hw : pyGet s.constraints (s.lastMet + 1) = some w) (t : Nat) (hne : t ≠ w) :
    ∃ s', s.advance t = some s' ∧ s'.lastMet = -1 ∧
      s'.constraints = s.constraints ∧ s'.is_sequence = s.is_sequence ∧
      s'.eos_id = s.eos_id ∧
      (∀ j : Nat, s'.met.get? j =
        if runStart s.is_sequence s.lastMet.toNat ≤ j ∧ j ≤ s.lastMet.toNat then some false
        else s.met.get? j) ∧
      ((∀ j : Nat, s.met.get? j = some true →
          runStart s.is_sequence s.lastMet.toNat ≤ j ∧ j ≤ s.lastMet.toNat) →
        s'.met = List.replicate s.met.length false) := by
  obtain ⟨hL1, hL2, hBits, hLast, hLM1, hLM2, hMetLM, hC, hB, hD⟩ := id hInv
  obtain ⟨hLM, hk0, hseq1⟩ := midPhrase_true_elim s hInv hmp
  have hkSeq : s.lastMet.toNat < s.is_sequence.length := by omega
  obtain ⟨met', hrb, hlen', hpt⟩ := rollbackLoop_spec s.is_sequence hBits hLast
    s.lastMet.toNat s.met (by omega) hkSeq hseq1
    (s.lastMet.toNat + s.is_sequence.length + 2) (by omega)
  have hrb' : ConstrainedHypothesis.rollbackLoop s.is_sequence
      (s.lastMet.toNat + s.is_sequence.length + 2) s.lastMet s.met = some met' := by
    rw [show s.lastMet = (s.lastMet.toNat : Int) from (Int.toNat_of_nonneg hk0).symm] at hrb ⊢
    exact hrb
  refine ⟨_, advance_of_mismatch s t w hmp hw hne hrb', rfl, rfl, rfl, rfl, ?_, ?_⟩
  · intro j
    exact hpt j
  · intro honly
    show met' = List.replicate s.met.length false
    apply List.ext_get?
    intro n
    rw [hpt n]
    rw [show (List.replicate s.met.length false).get? n =
        if n < s.met.length then some false else none by
      rw [List.get?_eq_getElem?, List.getElem?_replicate]]
    by_cases hin : runStart s.is_sequence s.lastMet.toNat ≤ n ∧ n ≤ s.lastMet.toNat
    · rw [if_pos hin, if_pos (by omega : n < s.met.length)]
    · rw [if_neg hin]
      cases hn : s.met.get? n with
      | none =>
        have hlen : s.met.length ≤ n := List.get?_eq_none.mp hn
        rw [if_neg (by omega)]
      | some b =>
        have hlen : n < s.met.length := by
          by_contra hcon
          rw [List.get?_eq_none.mpr (by omega)] at hn
          exact absurd hn (by simp)
        rw [if_pos hlen]
        cases b with
        | true => exact absurd (honly n hn) hin
        | false => rfl

/-- Witness for C4: the mid-phrase state after `advance(1)` on the
phrase `[1, 2]`, advanced on the non-matching token 5; the rollback
yields the all-false met array of the start state. -/
theorem C4_rollback_witness :
    ∃ s', exStateMid.advance 5 = some s' ∧ s'.lastMet = -1 ∧
      s'.constraints = exStateMid.constraints ∧
      s'.is_sequence = exStateMid.is_sequence ∧
      s'.eos_id = exStateMid.eos_id ∧
      (∀ j : Nat, s'.met.get? j =
        if runStart exStateMid.is_sequence exStateMid.lastMet.toNat ≤ j ∧
            j ≤ exStateMid.lastMet.toNat then some false
        else exStateMid.met.get? j) ∧
      ((∀ j : Nat, exStateMid.met.get? j = some true →
          runStart exStateMid.is_sequence exStateMid.lastMet.toNat ≤ j ∧
            j ≤ exStateMid.lastMet.toNat) →
        s'.met = List.replicate exStateMid.met.length false) :=
  C4_rollback exStateMid exStateMid_inv (by decide) 2 (by decide) 5 (by decide)

theorem insertStable_perm (key : α → β) [LinearOrder β] (x : α) (l : List α) :
    (insertStable key x l).Perm (x :: l) := by
  induction l with
  | nil => exact List.Perm.refl _
  | cons y ys ih =>
    rw [insertStable]
    split
    · exact (ih.cons y).trans (List.Perm.swap x y ys)
    · exact List.Perm.refl _

theorem sortStable_perm (key : α → β) [LinearOrder β] (l : List α) :
    (sortStable key l).Perm l := by
  induction l with
  | nil => exact List.Perm.refl _
  | cons x xs ih =>
    rw [sortStable]
    exact (insertStable_perm key x (sortStable key xs)).trans (ih.cons x)

theorem insertStable_sublist (key : α → β) [LinearOrder β] (x : α) (t : List α) :
    t.Sublist (insertStable key x t) := by
  induction t with
  | nil => simp
  | cons y ys ih =>
    rw [insertStable]
    split
    · exact List.cons_sublist_cons.mpr ih
    · exact List.sublist_cons_self x (y :: ys)

theorem insertStable_decomp (key : α → β) [LinearOrder β] (x : α) :
    ∀ t : List α, ∃ t₁ t₂, insertStable key x t = t₁ ++ x :: t₂ ∧ t = t₁ ++ t₂ ∧
      ∀ y ∈ t₁, key y < key x := by
  intro t
  induction t with
  | nil => exact ⟨[], [], rfl, rfl, by simp⟩
  | cons y ys ih =>
    rw [insertStable]
    by_cases hlt : key y < key x
    · rw [if_pos hlt]
      obtain ⟨t₁, t₂, h1, h2, h3⟩ := ih
      refine ⟨y :: t₁, t₂, by rw [h1, List.cons_append], by rw [h2, List.cons_append], ?_⟩
      intro z hz
      rcases List.mem_cons.mp hz with rfl | hz
      · exact hlt
      · exact h3 z hz
    · rw [if_neg hlt]
      exact ⟨[], y :: ys, rfl, rfl, by simp⟩

theorem sortStable_pair_sublist (key : α → β) [LinearOrder β] {a b : α} :
    ∀ {l : List α}, [a, b].Sublist l → key a ≤ key b →
      [a, b].Sublist (sortStable key l) := by
  intro l
  induction l with
  | nil =>
    intro h _
    exact absurd (List.sublist_nil.mp h) (by simp)
  | cons x xs ih =>
    intro h hk
    rw [sortStable]
    cases h with
    | cons _ h' =>
      exact (ih h' hk).trans (insertStable_sublist key x (sortStable key xs))
    | cons₂ _ h' =>
      have hbmem : b ∈ xs := List.singleton_sublist.mp h'
      have hbsort : b ∈ sortStable key xs :=
        ((sortStable_perm key xs).mem_iff).mpr hbmem
      obtain ⟨t₁, t₂, heq, hsplit, hkeys⟩ := insertStable_decomp key a (sortStable key xs)
      rw [heq]
      have hb2 : b ∈ t₂ := by
        rw [hsplit] at hbsort
        rcases List.mem_append.mp hbsort with h1 | h2
        · exact absurd hk (not_le.mpr (hkeys b h1))
        · exact h2
      have hsub : ([a] ++ [b] : List α).Sublist ((t₁ ++ [a]) ++ t₂) :=
        List.Sublist.append (List.sublist_append_right t₁ [a])
          (List.singleton_sublist.mpr hb2)
      simpa [List.append_assoc] using hsub

/-- C10 (implicit): the bank-redistribution tie-break is deterministic
and prefers the lower-indexed bank. In `get_bank_sizes`' iteration
order for bank `i` (the stable sort of `[i-1..0] ++ [i+1..n-1]` by
distance), for equidistant banks `i-d` and `i+d` the bank `i-d` appears
before `i+d`, so a transfer is drawn from `i-d` first. -/
theorem C10_tiebreak (i n d : Nat) (hd : 1 ≤ d) (hdi : d ≤ i) (hin : i + d < n) :
    [i - d, i + d].Sublist (sortedIndices i n) := by
  unfold sortedIndices
  apply sortStable_pair_sublist
  · have h1 : [i - d].Sublist (List.range i).reverse := by
      rw [List.singleton_sublist, List.mem_reverse, List.mem_range]
      omega
    have h2 : [i + d].Sublist (List.range' (i + 1) (n - (i + 1))) := by
      rw [List.singleton_sublist, List.mem_range']
      exact ⟨d - 1, by omega, by omega⟩
    exact List.Sublist.append h1 h2
  · have hc1 : ((i - d : Nat) : Int) = (i : Int) - (d : Int) := by
      push_cast [hdi]
      ring
    have hc2 : ((i + d : Nat) : Int) = (i : Int) + (d : Int) := by push_cast; ring
    rw [hc1, hc2]
    omega

/-- Witness for C10 at `i = 1`, `n = 3`, `d = 1`: in the iteration list
for bank 1 over 3 banks, bank 0 precedes bank 2. -/
theorem C10_tiebreak_witness : [1 - 1, 1 + 1].Sublist (sortedIndices 1 3) :=
  C10_tiebreak 1 3 1 (by decide) (by decide) (by decide)

theorem getD_of_get? {l : List Int} {k : Nat} {x : Int} (h : l.get? k = some x) :
    l.getD k 0 = x := by
  simp [List.getD_eq_getElem?_getD, ← List.get?_eq_getElem?, h]

theorem lt_length_of_get? {l : List Int} {k : Nat} {x : Int} (h : l.get? k = some x) :
    k < l.length := by
  by_contra hcon
  rw [List.get?_eq_none.mpr (by omega)] at h
  exact absurd h (by simp)

theorem sum_set_int (l : List Int) : ∀ k : Nat, k < l.length → ∀ v : Int,
    (l.set k v).sum = l.sum - l.getD k 0 + v := by
  induction l with
  | nil => intro k hk; simp at hk
  | cons x xs ih =>
    intro k hk v
    cases k with
    | zero =>
      simp only [List.set, List.sum_cons, List.getD_cons_zero]
      ring
    | succ k =>
      simp only [List.set, List.sum_cons, List.getD_cons_succ]
      rw [ih k (by simpa using hk) v]
      ring

theorem getD_set_self (l : List Int) (k : Nat) (h : k < l.length) (v : Int) :
    (l.set k v).getD k 0 = v := by
  rw [List.getD_eq_getElem?_getD, ← List.get?_eq_getElem?, List.get?_set_eq_of_lt _ h]
  rfl

theorem getD_set_other (l : List Int) (k m : Nat) (h : k ≠ m) (v : Int) :
    (l.set k v).getD m 0 = l.getD m 0 := by
  rw [List.getD_eq_getElem?_getD, ← List.get?_eq_getElem?, List.get?_set_ne _ _ h,
    List.get?_eq_getElem?, ← List.getD_eq_getElem?_getD]

theorem innerPass_cons (cands : List Int) (i j : Nat) (rest : List Nat)
    (deficit : Int) (assigned : List Int) :
    innerPass cands i (j :: rest) deficit assigned = (do
      let cj ← cands.get? j
      let aj ← assigned.get? j
      let capacity := cj - aj
      if 0 < capacity then do
        let transfer := min (deficit.natAbs : Int) capacity
        let ai ← assigned.get? i
        let assigned := assigned.set i (ai - transfer)
        let aj2 ← assigned.get? j
        let assigned := assigned.set j (aj2 + transfer)
        innerPass cands i rest (deficit + transfer) assigned
      else innerPass cands i rest deficit assigned) := rfl

theorem innerPass_preserve (cands : List Int) (i : Nat) :
    ∀ (js : List Nat) (deficit : Int) (assigned : List Int) (d' : Int) (a' : List Int),
    innerPass cands i js deficit assigned = some (d', a') →
    i ∉ js → i < assigned.length → deficit ≤ 0 →
    a'.length = assigned.length ∧ a'.sum = assigned.sum ∧
    deficit ≤ d' ∧ d' ≤ 0 ∧
    (∀ m : Nat, m ≠ i → assigned.getD m 0 ≤ a'.getD m 0) ∧
    a'.getD i 0 = assigned.getD i 0 - (d' - deficit) := by
  intro js
  induction js with
  | nil =>
    intro deficit assigned d' a' h hnotin hi hd
    rw [innerPass] at h
    simp only [Option.some.injEq, Prod.mk.injEq] at h
    obtain ⟨rfl, rfl⟩ := h
    exact ⟨rfl, rfl, le_refl _, hd, fun m _ => le_refl _, by ring⟩
  | cons j rest ih =>
    intro deficit assigned d' a' h hnotin hi hd
    have hij : i ≠ j := fun hcon => hnotin (hcon ▸ List.mem_cons_self j rest)
    have hirest : i ∉ rest := fun hcon => hnotin (List.mem_cons_of_mem j hcon)
    rw [innerPass_cons] at h
    cases hcj : cands.get? j with
    | none => rw [hcj] at h; exact absurd h (by simp)
    | some cj =>
    cases haj : assigned.get? j with
    | none => rw [hcj, haj] at h; exact absurd h (by simp)
    | some aj =>
    rw [hcj, haj] at h
    simp only [Option.bind_eq_bind, Option.some_bind] at h
    by_cases hcap : 0 < cj - aj
    · rw [if_pos hcap] at h
      cases hai : assigned.get? i with
      | none => rw [hai] at h; exact absurd h (by simp)
      | some ai =>
      rw [hai] at h
      simp only [Option.some_bind] at h
      have hjlen : j < assigned.length := lt_length_of_get? haj
      have haj2 : (assigned.set i (ai - min (deficit.natAbs : Int) (cj - aj))).get? j
          = some aj := by
        rw [List.get?_set_ne _ _ hij]
        exact haj
      rw [haj2] at h
      simp only [Option.some_bind] at h
      set t := min (deficit.natAbs : Int) (cj - aj) with ht
      have ht0 : 0 ≤ t := by
        rw [ht]
        have h1 : (0 : Int) ≤ (deficit.natAbs : Int) := by positivity
        omega
      have htle : t ≤ -deficit := by
        have : (deficit.natAbs : Int) = -deficit := by omega
        rw [ht]
        omega
      set A2 := (assigned.set i (ai - t)).set j (aj + t) with hA2
      have hA2len : A2.length = assigned.length := by
        rw [hA2]
        simp
      obtain ⟨hlen', hsum', hdle, hd0, hmono, hieq⟩ :=
        ih (deficit + t) A2 d' a' h hirest (by omega) (by omega)
      have hgi : assigned.getD i 0 = ai := getD_of_get? hai
      have hgj : assigned.getD j 0 = aj := getD_of_get? haj
      have hA2sum : A2.sum = assigned.sum := by
        rw [hA2, sum_set_int _ j (by simpa using hjlen) _,
          getD_set_other _ i j hij, hgj,
          sum_set_int _ i hi _, hgi]
        ring
      have hA2i : A2.getD i 0 = ai - t := by
        rw [hA2, getD_set_other _ j i (fun hc => hij hc.symm), getD_set_self _ i hi]
      refine ⟨by omega, by omega, by omega, hd0, ?_, ?_⟩
      · intro m hm
        rcases eq_or_ne m j with rfl | hmj
        · have h1 : A2.getD m 0 = aj + t := by
            rw [hA2]
            exact getD_set_self _ _ (by simpa using hjlen) _
          have h2 := hmono m hm
          rw [h1] at h2
          rw [hgj]
          omega
        · have h1 : A2.getD m 0 = assigned.getD m 0 := by
            rw [hA2, getD_set_other _ _ _ (Ne.symm hmj), getD_set_other _ _ _ (Ne.symm hm)]
          have h2 := hmono m hm
          rw [h1] at h2
          exact h2
      · rw [hieq, hA2i, hgi]
        ring
    · rw [if_neg hcap] at h
      exact ih deficit assigned d' a' h hirest hi hd

theorem innerPass_completes (cands : List Int) (i : Nat) :
    ∀ (js : List Nat) (deficit : Int) (assigned : List Int),
    js.Nodup → i ∉ js →
    (∀ j ∈ js, j < cands.length ∧ j < assigned.length) →
    i < assigned.length → deficit ≤ 0 →
    -deficit ≤ (js.map (fun j => max 0 (cands.getD j 0 - assigned.getD j 0))).sum →
    ∃ a', innerPass cands i js deficit assigned = some (0, a') := by
  intro js
  induction js with
  | nil =>
    intro deficit assigned _ _ _ _ hd hcap
    simp only [List.map_nil, List.sum_nil] at hcap
    have hd0 : deficit = 0 := by omega
    subst hd0
    exact ⟨assigned, rfl⟩
  | cons j rest ih =>
    intro deficit assigned hnd hnotin hbnd hi hd hcap
    have hij : i ≠ j := fun hcon => hnotin (hcon ▸ List.mem_cons_self j rest)
    have hirest : i ∉ rest := fun hcon => hnotin (List.mem_cons_of_mem j hcon)
    have hjrest : j ∉ rest := (List.nodup_cons.mp hnd).1
    have hndrest : rest.Nodup := (List.nodup_cons.mp hnd).2
    obtain ⟨hjc, hja⟩ := hbnd j (List.mem_cons_self j rest)
    obtain ⟨cj, hcj⟩ : ∃ cj, cands.get? j = some cj := by
      rw [List.get?_eq_get hjc]; exact ⟨_, rfl⟩
    obtain ⟨aj, haj⟩ : ∃ aj, assigned.get? j = some aj := by
      rw [List.get?_eq_get hja]; exact ⟨_, rfl⟩
    have hgcj : cands.getD j 0 = cj := getD_of_get? hcj
    have hgaj : assigned.getD j 0 = aj := getD_of_get? haj
    simp only [List.map_cons, List.sum_cons, hgcj, hgaj] at hcap
    have hrest_nonneg : (0 : Int) ≤
        (rest.map (fun m => max 0 (cands.getD m 0 - assigned.getD m 0))).sum := by
      apply List.sum_nonneg
      intro x hx
      obtain ⟨m, _, rfl⟩ := List.mem_map.mp hx
      exact le_max_left 0 _
    rw [innerPass_cons, hcj, haj]
    simp only [Option.bind_eq_bind, Option.some_bind]
    by_cases hcapj : 0 < cj - aj
    · rw [if_pos hcapj]
      obtain ⟨ai, hai⟩ : ∃ ai, assigned.get? i = some ai := by
        rw [List.get?_eq_get hi]; exact ⟨_, rfl⟩
      rw [hai]
      simp only [Option.some_bind]
      set t := min (deficit.natAbs : Int) (cj - aj) with ht
      have haj2 : (assigned.set i (ai - t)).get? j = some aj := by
        rw [List.get?_set_ne _ _ hij]
        exact haj
      rw [haj2]
      simp only [Option.some_bind]
      set A2 := (assigned.set i (ai - t)).set j (aj + t) with hA2
      have hA2len : A2.length = assigned.length := by rw [hA2]; simp
      have htabs : (deficit.natAbs : Int) = -deficit := by omega
      have ht0 : 0 ≤ t := by rw [ht]; omega
      have htle : t ≤ -deficit := by rw [ht]; omega
      have hA2rest : ∀ m ∈ rest, A2.getD m 0 = assigned.getD m 0 := by
        intro m hm
        have hmj : m ≠ j := fun hcon => hjrest (hcon ▸ hm)
        have hmi : m ≠ i := fun hcon => hirest (hcon ▸ hm)
        rw [hA2, getD_set_other _ _ _ (Ne.symm hmj), getD_set_other _ _ _ (Ne.symm hmi)]
      have hmapeq : rest.map (fun m => max 0 (cands.getD m 0 - A2.getD m 0)) =
          rest.map (fun m => max 0 (cands.getD m 0 - assigned.getD m 0)) := by
        apply List.map_congr_left
        intro m hm
        rw [hA2rest m hm]
      obtain ⟨a', ha'⟩ := ih (deficit + t) A2 hndrest hirest
        (fun m hm => ⟨(hbnd m (List.mem_cons_of_mem j hm)).1,
          by rw [hA2len]; exact (hbnd m (List.mem_cons_of_mem j hm)).2⟩)
        (by rw [hA2len]; exact hi) (by omega)
        (by
          rw [hmapeq]
          have hmax : max 0 (cj - aj) = cj - aj := max_eq_right (by omega)
          rw [hmax] at hcap
          rw [ht]
          omega)
      exact ⟨a', ha'⟩
    · rw [if_neg hcapj]
      apply ih deficit assigned hndrest hirest
        (fun m hm => hbnd m (List.mem_cons_of_mem j hm)) hi hd
      have hmax : max 0 (cj - aj) = 0 := max_eq_left (by omega)
      rw [hmax] at hcap
      omega

theorem sortedIndices_mem {i n j : Nat} :
    j ∈ sortedIndices i n ↔ (j < i ∨ (i + 1 ≤ j ∧ j < n)) := by
  unfold sortedIndices
  rw [(sortStable_perm _ _).mem_iff]
  rw [List.mem_append, List.mem_reverse, List.mem_range, List.mem_range'_1]
  omega

theorem sortedIndices_not_mem (i n : Nat) : i ∉ sortedIndices i n := by
  rw [sortedIndices_mem]
  omega

theorem sortedIndices_nodup (i n : Nat) : (sortedIndices i n).Nodup := by
  unfold sortedIndices
  rw [(sortStable_perm _ _).nodup_iff]
  apply List.Nodup.append
  · exact List.nodup_reverse.mpr (List.nodup_range i)
  · exact List.nodup_range' _ _
  · intro a ha hb
    rw [List.mem_reverse, List.mem_range] at ha
    rw [List.mem_range'_1] at hb
    omega

theorem sum_map_take (f : Nat → Int) (l : List Int) :
    ∀ m : Nat, m ≤ l.length →
    ((List.range m).map (fun j => l.getD j 0)).sum = (l.take m).sum := by
  intro m
  induction m with
  | zero => intro _; simp
  | succ m ih =>
    intro hm
    rw [List.range_succ, List.map_append, List.sum_append, ih (by omega), List.take_succ]
    obtain ⟨x, hx⟩ : ∃ x, l.get? m = some x := by
      rw [List.get?_eq_get (by omega : m < l.length)]; exact ⟨_, rfl⟩
    rw [List.sum_append, ← List.get?_eq_getElem?, hx]
    have hx2 : l[m]? = some x := by rw [← List.get?_eq_getElem?]; exact hx
    simp [hx2]

theorem sum_getD_range (l : List Int) :
    ((List.range l.length).map (fun j => l.getD j 0)).sum = l.sum := by
  rw [sum_map_take (fun j => l.getD j 0) l l.length (le_refl _), List.take_length]

theorem range_split (n i : Nat) (hi : i < n) :
    List.range n = List.range i ++ i :: List.range' (i + 1) (n - (i + 1)) := by
  rw [List.range_eq_range', List.range_eq_range']
  have h2 : List.range' i (n - i) = i :: List.range' (i + 1) (n - (i + 1)) := by
    rw [show n - i = (n - (i + 1)) + 1 by omega, List.range'_succ]
  have h1 : List.range' 0 i ++ List.range' (0 + 1 * i) (n - i) = List.range' 0 n := by
    rw [List.range'_append]
    congr 1
    omega
  rw [← h1, show 0 + 1 * i = i by omega, h2]

theorem sortedIndices_capacity (cands assigned : List Int) (i : Nat)
    (hlen : cands.length = assigned.length) (hi : i < assigned.length)
    (hsum : assigned.sum ≤ cands.sum) :
    assigned.getD i 0 - cands.getD i 0 ≤
      ((sortedIndices i assigned.length).map
        (fun j => max 0 (cands.getD j 0 - assigned.getD j 0))).sum := by
  have hperm : ((sortedIndices i assigned.length).map
      (fun j => max 0 (cands.getD j 0 - assigned.getD j 0))).sum =
      ((((List.range i).reverse ++ List.range' (i + 1) (assigned.length - (i + 1)))).map
        (fun j => max 0 (cands.getD j 0 - assigned.getD j 0))).sum :=
    ((sortStable_perm _ _).map _).sum_eq
  rw [hperm, List.map_append, List.sum_append, List.map_reverse, List.sum_reverse]
  have hptwise : ∀ (l : List Nat),
      ((l.map (fun j => cands.getD j 0 - assigned.getD j 0)).sum ≤
        (l.map (fun j => max 0 (cands.getD j 0 - assigned.getD j 0))).sum) := by
    intro l
    apply List.sum_le_sum
    intro m _
    exact le_max_right _ _
  have hsplit := range_split assigned.length i hi
  have htotal : ((List.range assigned.length).map
      (fun j => cands.getD j 0 - assigned.getD j 0)).sum = cands.sum - assigned.sum := by
    have hc : ((List.range assigned.length).map (fun j => cands.getD j 0)).sum = cands.sum := by
      rw [← hlen]
      exact sum_getD_range cands
    have ha : ((List.range assigned.length).map (fun j => assigned.getD j 0)).sum =
        assigned.sum := sum_getD_range assigned
    rw [← hc, ← ha]
    induction List.range assigned.length with
    | nil => simp
    | cons y ys ihy => simp at ihy ⊢; omega
  rw [hsplit, List.map_append, List.sum_append, List.map_cons, List.sum_cons] at htotal
  have h1 := hptwise (List.range i)
  have h2 := hptwise (List.range' (i + 1) (assigned.length - (i + 1)))
  omega

theorem whileDeficit_completes (cands : List Int) (i : Nat) (assigned : List Int)
    (hlen : cands.length = assigned.length) (hi : i < assigned.length)
    (hsum : assigned.sum ≤ cands.sum) (deficit : Int)
    (hdef : deficit = cands.getD i 0 - assigned.getD i 0)
    (fuel : Nat) (hfuel : 2 ≤ fuel) :
    ∃ a', whileDeficit cands i fuel deficit assigned = some a' ∧
      a'.length = assigned.length ∧ a'.sum = assigned.sum := by
  obtain ⟨f, rfl⟩ : ∃ f, fuel = f + 1 + 1 := ⟨fuel - 2, by omega⟩
  rw [whileDeficit]
  by_cases hneg : deficit < 0
  · rw [if_pos hneg]
    obtain ⟨a1, h1⟩ := innerPass_completes cands i (sortedIndices i assigned.length)
      deficit assigned (sortedIndices_nodup i assigned.length)
      (sortedIndices_not_mem i assigned.length)
      (fun j hj => by
        rw [sortedIndices_mem] at hj
        constructor <;> omega)
      hi (by omega)
      (by
        have := sortedIndices_capacity cands assigned i hlen hi hsum
        omega)
    obtain ⟨hlen1, hsum1, _, _, _, _⟩ := innerPass_preserve cands i _ _ _ _ _ h1
      (sortedIndices_not_mem i assigned.length) hi (by omega)
    rw [h1]
    simp only [Option.some_bind]
    refine ⟨a1, ?_, hlen1, hsum1⟩
    show whileDeficit cands i (f + 1) 0 a1 = some a1
    rw [whileDeficit]
    rw [if_neg (by omega)]
  · rw [if_neg hneg]
    exact ⟨assigned, rfl, rfl, rfl⟩

theorem whileDeficit_preserve (cands : List Int) (i : Nat) :
    ∀ (fuel : Nat) (deficit : Int) (assigned : List Int) (a' : List Int),
    whileDeficit cands i fuel deficit assigned = some a' →
    i < assigned.length →
    deficit = cands.getD i 0 - assigned.getD i 0 →
    a'.length = assigned.length ∧ a'.sum = assigned.sum ∧
    (∀ m : Nat, m ≠ i → assigned.getD m 0 ≤ a'.getD m 0) ∧
    ((0 ≤ deficit ∧ a' = assigned) ∨ a'.getD i 0 = cands.getD i 0) := by
  intro fuel
  induction fuel with
  | zero =>
    intro deficit assigned a' h
    exact absurd h (by rw [whileDeficit]; simp)
  | succ f ih =>
    intro deficit assigned a' h hi hdef
    rw [whileDeficit] at h
    by_cases hneg : deficit < 0
    · rw [if_pos hneg] at h
      cases hip : innerPass cands i (sortedIndices i assigned.length) deficit assigned with
      | none => rw [hip] at h; exact absurd h (by simp)
      | some p =>
      obtain ⟨d1, a1⟩ := p
      rw [hip] at h
      simp only [Option.some_bind] at h
      obtain ⟨hlen1, hsum1, hdle1, hd01, hmono1, hieq1⟩ :=
        innerPass_preserve cands i _ _ _ _ _ hip
          (sortedIndices_not_mem i assigned.length) hi (by omega)
      have hdef1 : d1 = cands.getD i 0 - a1.getD i 0 := by
        rw [hieq1]
        omega
      obtain ⟨hlen2, hsum2, hmono2, hlast2⟩ := ih d1 a1 a' h (by omega) hdef1
      refine ⟨by omega, by omega, ?_, ?_⟩
      · intro m hm
        exact le_trans (hmono1 m hm) (hmono2 m hm)
      · right
        rcases hlast2 with ⟨hd1nn, rfl⟩ | heq
        · rw [hieq1]
          omega
        · exact heq
    · rw [if_neg hneg] at h
      simp only [Option.some.injEq] at h
      subst h
      exact ⟨rfl, rfl, fun m _ => le_refl _, Or.inl ⟨by omega, rfl⟩⟩

theorem outerLoop_cons (cands : List Int) (fuel : Nat) (i : Nat) (rest : List Nat)
    (assigned : List Int) :
    outerLoop cands fuel (i :: rest) assigned = (do
      let ci ← cands.get? i
      let ai ← assigned.get? i
      let assigned ← whileDeficit cands i fuel (ci - ai) assigned
      outerLoop cands fuel rest assigned) := rfl

theorem outerLoop_completes (cands : List Int) (fuel : Nat) (hfuel : 2 ≤ fuel) :
    ∀ (idxs : List Nat) (assigned : List Int),
    cands.length = assigned.length →
    (∀ j ∈ idxs, j < assigned.length) →
    assigned.sum ≤ cands.sum →
    ∃ a', outerLoop cands fuel idxs assigned = some a' := by
  intro idxs
  induction idxs with
  | nil =>
    intro assigned _ _ _
    exact ⟨assigned, rfl⟩
  | cons i rest ih =>
    intro assigned hlen hbnd hsum
    have hi : i < assigned.length := hbnd i (List.mem_cons_self i rest)
    obtain ⟨ci, hci⟩ : ∃ ci, cands.get? i = some ci := by
      rw [List.get?_eq_get (by omega : i < cands.length)]; exact ⟨_, rfl⟩
    obtain ⟨ai, hai⟩ : ∃ ai, assigned.get? i = some ai := by
      rw [List.get?_eq_get hi]; exact ⟨_, rfl⟩
    obtain ⟨a1, hw, hlen1, hsum1⟩ := whileDeficit_completes cands i assigned hlen hi hsum
      (ci - ai) (by rw [getD_of_get? hci, getD_of_get? hai]) fuel hfuel
    obtain ⟨a', h'⟩ := ih a1 (by omega) (fun j hj => by
        rw [hlen1]; exact hbnd j (List.mem_cons_of_mem i hj))
      (by omega)
    refine ⟨a', ?_⟩
    rw [outerLoop_cons, hci]
    simp only [Option.bind_eq_bind, Option.some_bind]
    rw [hai]
    simp only [Option.some_bind]
    rw [hw]
    simp only [Option.some_bind]
    exact h'

theorem outerLoop_preserve (cands : List Int) (fuel : Nat) :
    ∀ (idxs : List Nat) (assigned a' : List Int),
    outerLoop cands fuel idxs assigned = some a' →
    a'.length = assigned.length ∧ a'.sum = assigned.sum ∧
    ((∀ x ∈ cands, 0 ≤ x) → (∀ m : Nat, 0 ≤ assigned.getD m 0) →
      ∀ m : Nat, 0 ≤ a'.getD m 0) := by
  intro idxs
  induction idxs with
  | nil =>
    intro assigned a' h
    rw [outerLoop] at h
    simp only [Option.some.injEq] at h
    subst h
    exact ⟨rfl, rfl, fun _ hnn m => hnn m⟩
  | cons i rest ih =>
    intro assigned a' h
    rw [outerLoop_cons] at h
    cases hci : cands.get? i with
    | none => rw [hci] at h; exact absurd h (by simp)
    | some ci =>
    rw [hci] at h
    simp only [Option.bind_eq_bind, Option.some_bind] at h
    cases hai : assigned.get? i with
    | none => rw [hai] at h; exact absurd h (by simp)
    | some ai =>
    rw [hai] at h
    simp only [Option.some_bind] at h
    cases hw : whileDeficit cands i fuel (ci - ai) assigned with
    | none => rw [hw] at h; exact absurd h (by simp)
    | some a1 =>
    rw [hw] at h
    simp only [Option.some_bind] at h
    have hi : i < assigned.length := lt_length_of_get? hai
    obtain ⟨hlen1, hsum1, hmono1, hlast1⟩ := whileDeficit_preserve cands i fuel _ _ _ hw hi
      (by rw [getD_of_get? hci, getD_of_get? hai])
    obtain ⟨hlen2, hsum2, hnn2⟩ := ih a1 a' h
    refine ⟨by omega, by omega, ?_⟩
    intro hcnn hann m
    apply hnn2 hcnn
    intro m'
    rcases eq_or_ne m' i with rfl | hm'
    · rcases hlast1 with ⟨_, rfl⟩ | heq
      · exact hann m'
      · rw [heq, getD_of_get? hci]
        exact hcnn ci (List.get?_mem hci)
    · exact le_trans (hann m') (hmono1 m' hm')

theorem getD_replicate_int (c : Nat) (q : Int) (k : Nat) :
    (List.replicate c q).getD k 0 = if k < c then q else 0 := by
  rw [List.getD_eq_getElem?_getD, List.getElem?_replicate]
  split <;> rfl

theorem get_bank_sizes_eq (n beam : Nat) (cands : List Int) (fuel : Nat) :
    get_bank_sizes n beam cands fuel =
      outerLoop cands fuel (List.range (n + 1))
        ((List.replicate (n + 1) ((beam / (n + 1) : Nat) : Int)).set n
          (((beam / (n + 1) : Nat) : Int) +
            ((beam - beam / (n + 1) * (n + 1) : Nat) : Int))) := rfl

theorem initialAssigned_facts (n beam : Nat) :
    ((List.replicate (n + 1) ((beam / (n + 1) : Nat) : Int)).set n
        (((beam / (n + 1) : Nat) : Int) +
          ((beam - beam / (n + 1) * (n + 1) : Nat) : Int))).length = n + 1 ∧
    ((List.replicate (n + 1) ((beam / (n + 1) : Nat) : Int)).set n
        (((beam / (n + 1) : Nat) : Int) +
          ((beam - beam / (n + 1) * (n + 1) : Nat) : Int))).sum = (beam : Int) ∧
    ∀ m : Nat, 0 ≤ ((List.replicate (n + 1) ((beam / (n + 1) : Nat) : Int)).set n
        (((beam / (n + 1) : Nat) : Int) +
          ((beam - beam / (n + 1) * (n + 1) : Nat) : Int))).getD m 0 := by
  have hdle : beam / (n + 1) * (n + 1) ≤ beam := Nat.div_mul_le_self beam (n + 1)
  have hrcast : ((beam - beam / (n + 1) * (n + 1) : Nat) : Int) =
      (beam : Int) - ((beam / (n + 1) : Nat) : Int) * ((n + 1 : Nat) : Int) := by
    push_cast [hdle]
    ring
  have hnlen : n < (List.replicate (n + 1) ((beam / (n + 1) : Nat) : Int)).length := by
    simp
  refine ⟨by simp, ?_, ?_⟩
  · rw [sum_set_int _ n hnlen, List.sum_replicate, getD_replicate_int,
      if_pos (by omega : n < n + 1), hrcast, nsmul_eq_mul]
    push_cast
    ring
  · intro m
    rcases eq_or_ne m n with heq | hmn
    · rw [heq, getD_set_self _ n hnlen, hrcast]
      have h0 : (0 : Int) ≤ ((beam / (n + 1) : Nat) : Int) := by positivity
      have h1 : ((beam / (n + 1) : Nat) : Int) * ((n + 1 : Nat) : Int) ≤ (beam : Int) := by
        exact_mod_cast hdle
      omega
    · rw [getD_set_other _ _ _ (Ne.symm hmn), getD_replicate_int]
      split
      · positivity
      · exact le_refl 0

/-- C3 (amended): `get_bank_sizes` terminates and returns a result for
every input of `numConstraints + 1` non-negative candidate counts whose
total is at least `beamCapacity`; at the counterexample input (total
below capacity) the `while` loop never returns. -/
theorem C3_terminates_of_enough_candidates (n beam : Nat) (cands : List Int) (fuel : Nat)
    (hlen : cands.length = n + 1) (hbeam : 1 ≤ beam)
    (hnn : ∀ x ∈ cands, 0 ≤ x) (htot : (beam : Int) ≤ cands.sum) (hfuel : 2 ≤ fuel) :
    ∃ r, get_bank_sizes n beam cands fuel = some r := by
  rw [get_bank_sizes_eq]
  obtain ⟨hA0len, hA0sum, _⟩ := initialAssigned_facts n beam
  exact outerLoop_completes cands fuel hfuel (List.range (n + 1)) _ (by omega)
    (fun j hj => by rw [hA0len]; exact List.mem_range.mp hj) (by omega)

/-- Witness for the amended C3 at the concrete input
`get_bank_sizes(1, 4, [1, 5])` with fuel 2. -/
theorem C3_terminates_witness : ∃ r, get_bank_sizes 1 4 [1, 5] 2 = some r :=
  C3_terminates_of_enough_candidates 1 4 [1, 5] 2 (by decide) (by decide) (by decide)
    (by decide) (by decide)

/-- C3 counterexample: with numConstraints 0, beamCapacity 1 and
candidate counts [0] (a legal input whose total, 0, is below the
capacity 1), `get_bank_sizes` returns at no fuel: the Python `while`
loop runs forever because no bank ever offers spare capacity. -/
theorem C3_counterexample_diverges : getBankSizesDivergesAt 0 1 [0] := by
  intro fuel
  have hw : ∀ f : Nat, whileDeficit [0] 0 f (-1) [1] = none := by
    intro f
    induction f with
    | zero => rfl
    | succ f ih =>
      rw [whileDeficit, if_pos (by norm_num)]
      have hip : innerPass [0] 0 (sortedIndices 0 ([1] : List Int).length) (-1) [1] =
          some (-1, [1]) := rfl
      rw [hip]
      simp only [Option.some_bind]
      exact ih
  have h0 : get_bank_sizes 0 1 [0] fuel = outerLoop [0] fuel [0] [1] := rfl
  rw [h0, outerLoop_cons]
  have h1 : ([0] : List Int).get? 0 = some 0 := rfl
  have h2 : ([1] : List Int).get? 0 = some 1 := rfl
  rw [h1]
  simp only [Option.bind_eq_bind, Option.some_bind]
  rw [h2]
  simp only [Option.some_bind]
  rw [show ((0 : Int) - 1) = -1 by norm_num, hw fuel]
  rfl

/-- C5: whenever `get_bank_sizes` returns on a list of
`numConstraints + 1` non-negative candidate counts (capacity ≥ 1,
banks ≤ capacity), every allocated entry is non-negative and the entries
sum exactly to the beam capacity; and at the concrete scenario
`get_bank_sizes(1, 4, [1, 5])` bank 1 receives 3 slots, more than the
even split of 2. -/
theorem C5_bank_allocation :
    (∀ (n beam : Nat) (cands : List Int) (fuel : Nat) (r : List Int),
      1 ≤ beam → n + 1 ≤ beam → cands.length = n + 1 → (∀ x ∈ cands, 0 ≤ x) →
      get_bank_sizes n beam cands fuel = some r →
      (∀ x ∈ r, 0 ≤ x) ∧ r.sum = (beam : Int)) ∧
    get_bank_sizes 1 4 [1, 5] 2 = some [1, 3] ∧ (2 : Int) < 3 := by
  refine ⟨?_, by rfl, by norm_num⟩
  intro n beam cands fuel r hbeam hbank hlen hnn hret
  rw [get_bank_sizes_eq] at hret
  obtain ⟨hA0len, hA0sum, hA0nn⟩ := initialAssigned_facts n beam
  obtain ⟨hlenr, hsumr, hnnr⟩ := outerLoop_preserve cands fuel _ _ _ hret
  refine ⟨?_, by omega⟩
  intro x hx
  obtain ⟨m, hm⟩ := List.mem_iff_get?.mp hx
  have hnn' := hnnr hnn hA0nn m
  rw [getD_of_get? hm] at hnn'
  exact hnn'

/-- Witness for C5 at the concrete scenario. -/
theorem C5_bank_allocation_witness :
    (∀ x ∈ ([1, 3] : List Int), 0 ≤ x) ∧ ([1, 3] : List Int).sum = ((4 : Nat) : Int) :=
  C5_bank_allocation.1 1 4 [1, 5] 2 [1, 3] (by decide) (by decide) (by decide)
    (by decide) (by rfl)

theorem buildArrays_of_ne_nil : ∀ (cl : List (List Nat)) (cons seq : List Nat), seq ≠ [] →
    ∃ p, ConstrainedHypothesis.buildArrays cl cons seq = some p := by
  intro cl
  induction cl with
  | nil => intro cons seq _; exact ⟨(cons, seq), rfl⟩
  | cons phrase rest ih =>
    intro cons seq hne
    have hne0 : seq ++ List.replicate phrase.length 1 ≠ [] := by
      intro hcon
      exact hne (List.append_eq_nil.mp hcon).1
    obtain ⟨p, hp⟩ := ih (cons ++ phrase)
      ((seq ++ List.replicate phrase.length 1).set
        ((seq ++ List.replicate phrase.length 1).length - 1) 0)
      (by
        intro hcon
        have hl := congrArg List.length hcon
        rw [List.length_set] at hl
        exact hne0 (List.length_eq_zero.mp hl))
    refine ⟨p, ?_⟩
    simp only [ConstrainedHypothesis.buildArrays]
    rw [pySet_neg_one _ hne0]
    exact hp

/-- C7 (amended): construction never raises for the empty phrase list or
for any list whose first phrase is non-empty; with no effective
constraints (the empty list) it degenerates to zero constraints:
`size() == 0` and `finished() == true`. A list whose FIRST phrase is
empty, however, raises IndexError in `is_sequence[-1] = 0` (see the
counterexample). -/
theorem C7_construction (constraint_list : List (List Nat)) (eos_id : Nat)
    (h : constraint_list = [] ∨ ∃ x xs rest, constraint_list = (x :: xs) :: rest) :
    ∃ s, ConstrainedHypothesis.init constraint_list eos_id = some s ∧
      (constraint_list = [] → s.size = 0 ∧ s.finished = true) := by
  rcases h with rfl | ⟨x, xs, rest, rfl⟩
  · refine ⟨⟨[], [], eos_id, [], -1⟩, rfl, ?_⟩
    intro _
    exact ⟨rfl, rfl⟩
  · have hne : List.replicate (x :: xs).length 1 ≠ ([] : List Nat) := by
      simp
    obtain ⟨p, hp⟩ := buildArrays_of_ne_nil rest (x :: xs)
      ((List.replicate (x :: xs).length 1).set
        ((List.replicate (x :: xs).length 1).length - 1) 0)
      (by
        intro hcon
        have hl := congrArg List.length hcon
        rw [List.length_set] at hl
        exact hne (List.length_eq_zero.mp hl))
    obtain ⟨cons, seq⟩ := p
    refine ⟨⟨cons, seq, eos_id, List.replicate cons.length false, -1⟩, ?_, ?_⟩
    · unfold ConstrainedHypothesis.init
      simp only [ConstrainedHypothesis.buildArrays, List.nil_append]
      rw [pySet_neg_one _ hne]
      show (ConstrainedHypothesis.buildArrays rest (x :: xs)
          ((List.replicate (x :: xs).length 1).set
            ((List.replicate (x :: xs).length 1).length - 1) 0)).bind
        (fun p => some (⟨p.1, p.2, eos_id, List.replicate p.1.length false, -1⟩ :
          ConstrainedHypothesis)) =
        some ⟨cons, seq, eos_id, List.replicate cons.length false, -1⟩
      rw [hp]
      rfl
    · intro hcon
      exact absurd hcon (by simp)

/-- C7 counterexample: the phrase list `[[]]` (a single empty phrase) is
malformed input on which the constructor raises IndexError
(`is_sequence[-1] = 0` on the still-empty list), contradicting the
claim that construction never raises. -/
theorem C7_counterexample_empty_phrase :
    ConstrainedHypothesis.init [[]] 0 = none := rfl

/-- Witness for the amended C7 at the empty constraint list. -/
theorem C7_construction_witness :
    ∃ s, ConstrainedHypothesis.init ([] : List (List Nat)) 0 = some s ∧
      (([] : List (List Nat)) = [] → s.size = 0 ∧ s.finished = true) :=
  C7_construction [] 0 (Or.inl rfl)

/-- C8: `NullHypothesis()` does not construct successfully — the base
constructor is called with `([], [])`, two empty phrases, and the first
`is_sequence[-1] = 0` raises IndexError on the empty list. The claim
that the sentinel constructs (with `size() == 0`, `finished() == true`,
`isValid` always false) describes the clear intent — `topk` relies on
it for padding — so the code is in bug. -/
theorem C8_nullHypothesis_raises : nullHypothesisInit = none := rfl

/-- C2: `topk` evaluated at a failing input. With beam capacity 1, the
single row inactive and no pre-selected candidates, the merged candidate
set is empty, the padding loop runs — and crashes constructing
`NullHypothesis()` instead of padding with sentinel candidates; the
model returns `none` (raised exception), not length-1 output arrays. -/
theorem C2_topk_crashes_on_padding :
    topk 1 [1] [[(0 : WithTop ℚ)]]
      [{ constraints := [5], is_sequence := [0], eos_id := 7,
         met := [false], lastMet := -1 }] [] [] [] = none := rfl

end LexicalConstraints
